import Mathlib

/-!
# KWin: Wayland repaint scheduling, EGL damage history and three smaller pieces

A shallow embedding of

* `src/lib/render/backend/wlroots/egl_backend.h`
  (`get_output_render_region`, `set_render_target_to_output`, `endRenderingFrameForScreen`),
* `src/render/backend/wlroots/egl_output.cpp` (`reset`, `present`),
* `src/render/wayland/compositor.cpp`
  (`addRepaint`, `check_idle`, the constructor with its `output_added` and `output_removed`
  handlers, `schedule_repaint`, `schedule_frame_callback`, `is_locked`, `lock`, `unlock`,
  `performCompositing`),
* `src/render/backend/wlroots/qpainter_output.h` (`present`),
* `src/effects/thumbnailaside/thumbnailaside.cpp` (the thumbnail bookkeeping and `arrange`),
* `src/win/x11/space_areas.h` (`update_space_areas`),
* `src/input/qt_event.cpp` (`button_map` and the two conversions).

Qt value types are modelled by their meaning: a `QRegion` is the finite set of pixels it covers.
Calls that leave the repository (wlroots, GL) or reach code that is not part of the sources at
hand (the bodies of `render::wayland::output`) are recorded in a call log, oldest call first, and
their answers are inputs of the model.
-/

namespace KWin

/-! ## Qt geometry -/

/-- A pixel position `(x, y)`. -/
abbrev QPoint := Int × Int

/-- A `QRegion`, by its meaning: the finite set of pixels that it covers. -/
abbrev QRegion := Finset QPoint

/-- A `QRect` given by its top-left corner and its size. -/
structure QRect where
  x : Int
  y : Int
  width : Int
  height : Int
deriving DecidableEq, Repr

namespace QRect

/-- The pixels of a rectangle (`QRegion(QRect)`); a rectangle without extent covers nothing. -/
def toRegion (r : QRect) : QRegion :=
  Finset.Ico r.x (r.x + r.width) ×ˢ Finset.Ico r.y (r.y + r.height)

/-- The corner `QRect::topLeft()`. -/
def topLeft (r : QRect) : QPoint := (r.x, r.y)

end QRect

/-- The region moved by an offset: `QRegion::translated(QPoint)`. -/
def translated (r : QRegion) (d : QPoint) : QRegion :=
  r.image (fun p => (p.1 + d.1, p.2 + d.2))

/-- The union of a list of regions, in list order. -/
def united (rs : List QRegion) : QRegion :=
  rs.foldr (fun r acc => r ∪ acc) ∅

namespace render.backend.wlroots

/-! ## The wlroots EGL backend -/

/-- Calls into wlroots and GL, recorded in the order in which they are issued. -/
inductive wlr_call where
  | output_attach_render
  | renderer_begin
  | renderer_end
  | push_render_target
  | pop_render_target
  | timer_query_emplace
  | gl_flush
  | output_rollback
  | output_set_damage (damage : QRegion)
  | output_attach_buffer
  | output_enable
  | output_test
  | output_commit
  | buffer_drop
  | create_surface
  | reset_framebuffer
deriving DecidableEq

/-- The answers of wlroots and GL during one call into the backend. -/
structure wlr_env where
  /-- The buffer age written by `wlr_output_attach_render`. -/
  buffer_age : Int
  /-- Whether `GLPlatform::instance()->supports(GLFeature::TimerQuery)`. -/
  timer_query : Bool
  /-- The flag `base.native->enabled`. -/
  native_enabled : Bool
  /-- The result of `wlr_output_test`. -/
  test_ok : Bool
  /-- The result of `wlr_output_commit`. -/
  commit_ok : Bool
  /-- The surface made by `create_surface` or `create_headless_surface`; `none` is a null one. -/
  new_surf : Option Nat
deriving DecidableEq

/-- The state reached through `get_egl_out(output)`: the `egl_output` with the `swap_pending`
flag of the render output it points to (`out->out->swap_pending`), and the call log. -/
structure egl_output where
  bufferAge : Int
  damageHistory : List QRegion
  surf : Nat
  swap_pending : Bool
  calls : List wlr_call
deriving DecidableEq

/-- Record one more external call. -/
def egl_output.call (out : egl_output) (c : wlr_call) : egl_output :=
  { out with calls := out.calls ++ [c] }

/-- The loop `for (int i = 0; i < n; i++) region |= damageHistory[i]` starting from the
empty region. The callers guarantee that every index is within the history. -/
def accumulate_damage (damageHistory : List QRegion) (n : Nat) : QRegion :=
  (List.range n).foldl (fun region i => region ∪ damageHistory.getD i ∅) ∅

/-- The function `egl_backend::get_output_render_region`. The history never holds more than a
few entries, so `static_cast<int>(damageHistory.size())` is the size itself. -/
def get_output_render_region (supportsBufferAge : Bool) (geometry : QRect) (out : egl_output) :
    QRegion :=
  if !supportsBufferAge then
    geometry.toRegion
  else if out.bufferAge = 0 then
    geometry.toRegion
  else if out.bufferAge > (out.damageHistory.length : Int) then
    geometry.toRegion
  else
    accumulate_damage out.damageHistory (out.bufferAge - 1).toNat

/-- The function `egl_output::reset`: make a new surface and, when that worked, install it and
set the framebuffer up again. -/
def reset (env : wlr_env) (out : egl_output) : Bool × egl_output :=
  let out := out.call .create_surface
  match env.new_surf with
  | none => (false, out)
  | some surf => (true, { out with surf := surf }.call .reset_framebuffer)

/-- The function `egl_output::present`. -/
def present (env : wlr_env) (out : egl_output) : Bool × egl_output :=
  let out := { out with swap_pending := true }
  let out := out.call .output_attach_buffer
  let out := if !env.native_enabled then out.call .output_enable else out
  let out := out.call .output_test
  if !env.test_ok then
    let out := (reset env out).2
    (false, out.call .buffer_drop)
  else
    let out := out.call .output_commit
    if !env.commit_ok then
      let out := (reset env out).2
      (false, out.call .buffer_drop)
    else
      (true, out.call .buffer_drop)

/-- The effect of `egl_backend::set_render_target_to_output` on the output state:
`wlr_output_attach_render(native_out, &out->bufferAge)` stores the age that wlroots reports. -/
def set_render_target_to_output (env : wlr_env) (out : egl_output) : egl_output :=
  let out := { out with bufferAge := env.buffer_age }.call .output_attach_render
  (out.call .renderer_begin).call .push_render_target

/-- The function `egl_backend::endRenderingFrameForScreen`. -/
def endRenderingFrameForScreen (supportsBufferAge : Bool) (env : wlr_env) (geometry : QRect)
    (out : egl_output) (renderedRegion damagedRegion : QRegion) : egl_output :=
  let out := if env.timer_query then out.call .timer_query_emplace else out
  let out := (out.call .pop_render_target).call .renderer_end
  if damagedRegion ∩ geometry.toRegion = ∅ then
    let out := if ¬ (renderedRegion ∩ geometry.toRegion = ∅) then out.call .gl_flush else out
    out.call .output_rollback
  else
    let out := out.call
      (.output_set_damage (translated damagedRegion (-geometry.topLeft.1, -geometry.topLeft.2)))
    let res := present env out
    if !res.1 then
      { res.2 with swap_pending := false }
    else if supportsBufferAge then
      let out := res.2
      let kept :=
        if out.damageHistory.length > 10 then out.damageHistory.dropLast else out.damageHistory
      { out with damageHistory := (damagedRegion ∩ geometry.toRegion) :: kept }
    else
      res.2

/-- One frame handed to `endRenderingFrameForScreen`: the answers of the outside world, the
geometry of the output at that time, and the rendered and the damaged region. -/
structure frame where
  env : wlr_env
  geometry : QRect
  renderedRegion : QRegion
  damagedRegion : QRegion

/-- A sequence of `endRenderingFrameForScreen` calls on one output, first frame first. -/
def end_frames (supportsBufferAge : Bool) (out : egl_output) (frames : List frame) : egl_output :=
  frames.foldl
    (fun o f => endRenderingFrameForScreen supportsBufferAge f.env f.geometry o
      f.renderedRegion f.damagedRegion)
    out

/-- An `egl_output` that has recorded no damage yet: its history is the empty deque. The buffer
age is written anew at the start of every frame. -/
def egl_output.fresh (surf : Nat) : egl_output :=
  { bufferAge := 0, damageHistory := [], surf := surf, swap_pending := false, calls := [] }

end render.backend.wlroots

namespace render.wayland

/-! ## The Wayland compositor -/

/-- The key of the output map: a `base::wayland::output*`. -/
abbrev output_id := Nat

/-- A window: a `Toplevel*`. -/
abbrev window_id := Nat

/-- The data members of `render::wayland::output` (`src/render/wayland/output.h`); a timer is
represented by whether it is active, durations are in nanoseconds. -/
structure output where
  msc : Nat
  delay : Int
  last_paint_durations : Int × Int
  paint_periods : Int
  repaints_region : QRegion
  assigned_surfaces : List (Nat × Nat)
  idle : Bool
  swap_pending : Bool
  delay_timer : Bool
  frame_timer : Bool
deriving DecidableEq

/-- The calls that the compositor issues to its output schedulers and to its base class,
recorded in the order in which they are issued. -/
inductive sched_call where
  | add_repaint (key : output_id) (region : QRegion)
  | set_delay_timer (key : output_id)
  | request_frame (key : output_id) (window : window_id)
  | addRepaintFull
  | scene_idle
  | run (key : output_id)
deriving DecidableEq

/-- What `compositor.cpp` uses and does not define: the geometry of the base outputs, the helpers
`win::visible_rect` and `max_coverage_output`, the size of the whole space, and the bodies of the
member functions of `render::wayland::output`, each acting on the scheduler it is called on. -/
structure world where
  /-- The geometry `base->geometry()` of the output behind a key. -/
  geometry : output_id → QRect
  /-- The rectangle `win::visible_rect(window)`. -/
  visible_rect : window_id → QRect
  /-- The output `max_coverage_output(window)`; `none` is the null pointer. -/
  max_coverage_output : window_id → Option output_id
  /-- The region of the whole space, handed to `addRepaint` by `addRepaintFull`. -/
  space : QRegion
  /-- The body of `output::add_repaint`. -/
  add_repaint : QRegion → output → output
  /-- The body of `output::set_delay_timer`. -/
  set_delay_timer : output → output
  /-- The body of `output::request_frame`. -/
  request_frame : window_id → output → output

/-- The state of `render::wayland::compositor`: the lock counter, the output map in key order,
and the log of the calls issued so far. -/
structure compositor where
  locked : Int
  outputs : List (output_id × output)
  calls : List sched_call
deriving DecidableEq

/-- The test `!a.intersected(b).isEmpty()` on two rectangles of valid extent: they share a
pixel. -/
def rects_intersect (a b : QRect) : Bool :=
  decide (a.toRegion ∩ b.toRegion ≠ ∅)

/-- The loop of `compositor::addRepaint` over the output map: every scheduler gets the call. -/
def addRepaint_loop (w : world) (region : QRegion) :
    List (output_id × output) → List (output_id × output) × List sched_call
  | [] => ([], [])
  | (key, output) :: rest =>
    let done := addRepaint_loop w region rest
    ((key, w.add_repaint region output) :: done.1, sched_call.add_repaint key region :: done.2)

/-- The function `compositor::addRepaint`. -/
def addRepaint (w : world) (c : compositor) (region : QRegion) : compositor :=
  if c.locked ≠ 0 then
    c
  else
    let done := addRepaint_loop w region c.outputs
    { c with outputs := done.1, calls := c.calls ++ done.2 }

/-- The loop of `compositor::schedule_repaint` over the output map: a scheduler gets the call
when the visible rectangle of the window meets the geometry of its output. -/
def schedule_repaint_loop (w : world) (window : window_id) :
    List (output_id × output) → List (output_id × output) × List sched_call
  | [] => ([], [])
  | (base, output) :: rest =>
    let done := schedule_repaint_loop w window rest
    if rects_intersect (w.visible_rect window) (w.geometry base) then
      ((base, w.set_delay_timer output) :: done.1, sched_call.set_delay_timer base :: done.2)
    else
      ((base, output) :: done.1, done.2)

/-- The function `compositor::schedule_repaint`. -/
def schedule_repaint (w : world) (c : compositor) (window : window_id) : compositor :=
  if c.locked ≠ 0 then
    c
  else
    let done := schedule_repaint_loop w window c.outputs
    { c with outputs := done.1, calls := c.calls ++ done.2 }

/-- The scheduler stored under a key of the output map, if there is one. -/
def find_output (key : output_id) : List (output_id × output) → Option output
  | [] => none
  | (k, output) :: rest => if k = key then some output else find_output key rest

/-- Replace the scheduler stored under a key of the output map. -/
def set_output (key : output_id) (new_output : output) :
    List (output_id × output) → List (output_id × output)
  | [] => []
  | (k, output) :: rest =>
    if k = key then (k, new_output) :: rest else (k, output) :: set_output key new_output rest

/-- The function `compositor::schedule_frame_callback`. For a key that is not in the map,
`outputs[max_out]` is a null pointer and the call through it has no defined result: `none`. -/
def schedule_frame_callback (w : world) (c : compositor) (window : window_id) :
    Option compositor :=
  if c.locked ≠ 0 then
    some c
  else
    match w.max_coverage_output window with
    | none => some c
    | some max_out =>
      match find_output max_out c.outputs with
      | none => none
      | some output =>
        some { c with
          outputs := set_output max_out (w.request_frame window output) c.outputs,
          calls := c.calls ++ [sched_call.request_frame max_out window] }

/-- The function `compositor::is_locked`. -/
def is_locked (c : compositor) : Bool :=
  decide (c.locked > 0)

/-- Modelled from the spec: `render::compositor::addRepaintFull` of the base class is not among
the sources; a full repaint is a repaint request for the whole space, sent through
`addRepaint`. -/
def addRepaintFull (w : world) (c : compositor) : compositor :=
  addRepaint w { c with calls := c.calls ++ [sched_call.addRepaintFull] } w.space

/-- The function `compositor::unlock`; `none` when `assert(locked > 0)` fails. -/
def unlock (w : world) (c : compositor) : Option compositor :=
  if c.locked > 0 then
    let c := { c with locked := c.locked - 1 }
    if c.locked = 0 then some (addRepaintFull w c) else some c
  else
    none

/-- The function `compositor::lock`. The declaration of the counter is not among the sources;
it is taken as an integer without a width. -/
def lock (c : compositor) : compositor :=
  { c with locked := c.locked + 1 }

/-- A call of `lock()` or of `unlock()`. -/
inductive lock_call where
  | lock
  | unlock
deriving DecidableEq

/-- A sequence of `lock()` and `unlock()` calls, first call first; `none` as soon as an
`unlock()` fails its assertion. -/
def run_lock_calls (w : world) : compositor → List lock_call → Option compositor
  | c, [] => some c
  | c, lock_call.lock :: rest => run_lock_calls w (lock c) rest
  | c, lock_call.unlock :: rest =>
    match unlock w c with
    | none => none
    | some c2 => run_lock_calls w c2 rest

/-- Every leading part of a call sequence holds at most as many `unlock()` as `lock()` calls. -/
def balanced (calls : List lock_call) : Prop :=
  ∀ n, n ≤ calls.length →
    (calls.take n).count lock_call.unlock ≤ (calls.take n).count lock_call.lock

instance (calls : List lock_call) : Decidable (balanced calls) := by
  unfold balanced
  infer_instance

/-- The loop of `compositor::check_idle`: `false` when it returns early at a scheduler that is
not idle, `true` when it runs to its end. -/
def check_idle_loop : List (output_id × output) → Bool
  | [] => true
  | (_, output) :: rest => if !output.idle then false else check_idle_loop rest

/-- The function `compositor::check_idle`: after the loop, `scene()->idle()` is called. -/
def check_idle (c : compositor) : compositor :=
  if check_idle_loop c.outputs then
    { c with calls := c.calls ++ [sched_call.scene_idle] }
  else
    c

/-- The call `outputs.emplace(key, value)` on the map in key order: nothing happens when the
key is there already. -/
def emplace (key : output_id) (value : output) :
    List (output_id × output) → List (output_id × output)
  | [] => [(key, value)]
  | (k, o) :: rest =>
    if key = k then (k, o) :: rest
    else if key < k then (key, value) :: (k, o) :: rest
    else (k, o) :: emplace key value rest

/-- The handler of `base::platform::output_added`; `make_output` is the constructor of
`render::wayland::output`, whose body is not among the sources. -/
def output_added (make_output : output_id → output) (c : compositor) (wl_out : output_id) :
    compositor :=
  { c with outputs := emplace wl_out (make_output wl_out) c.outputs }

/-- The part of the constructor `compositor::compositor` that fills the output map from
`platform.base.get_outputs()`. -/
def new_compositor (make_output : output_id → output) (get_outputs : List output_id) :
    compositor :=
  get_outputs.foldl (output_added make_output) { locked := 0, outputs := [], calls := [] }

/-- A window of the workspace with its list `repaint_outputs`. -/
structure window where
  id : window_id
  repaint_outputs : List output_id
deriving DecidableEq

/-- Modelled from the spec: the helper `remove_all(container, arg)` is not among the sources;
it scrubs every reference to the removed output from the list and leaves the rest alone. -/
def remove_all (arg : output_id) : List output_id → List output_id
  | [] => []
  | x :: rest => if x = arg then remove_all arg rest else x :: remove_all arg rest

/-- The loop of the `output_removed` handler over the output map: the first entry with the
key is erased and the loop ends. -/
def erase_output (removed : output_id) : List (output_id × output) → List (output_id × output)
  | [] => []
  | (k, o) :: rest => if k = removed then rest else (k, o) :: erase_output removed rest

/-- The handler of `base::platform::output_removed`, on the compositor and on the windows of
the workspace; `none` for the workspace is a null `Workspace::self()`. -/
def output_removed (c : compositor) (workspace : Option (List window)) (removed : output_id) :
    compositor × Option (List window) :=
  let c := { c with outputs := erase_output removed c.outputs }
  match workspace with
  | none => (c, none)
  | some windows =>
    (c, some (windows.map
      (fun win => { win with repaint_outputs := remove_all removed win.repaint_outputs })))

/-- A hotplug signal of the platform. -/
inductive hotplug where
  | output_added (o : output_id)
  | output_removed (o : output_id)
deriving DecidableEq

/-- The handling of one hotplug signal. -/
def handle_hotplug (make_output : output_id → output)
    (state : compositor × Option (List window)) : hotplug → compositor × Option (List window)
  | hotplug.output_added o => (output_added make_output state.1 o, state.2)
  | hotplug.output_removed o => output_removed state.1 state.2 o

/-- The outputs present on the platform after a sequence of hotplug signals: an added output is
present, a removed one is absent. -/
def present_outputs (initial : Finset output_id) (events : List hotplug) : Finset output_id :=
  events.foldl
    (fun present e =>
      match e with
      | hotplug.output_added o => insert o present
      | hotplug.output_removed o => present.erase o)
    initial

/-- Modelled from the spec: the body of `output::add_repaint` is not among the sources. A
non-empty region accumulates into `repaints_region` by union and the scheduler is no longer
idle; the delay timer is started unless it runs already or a presentation is in flight. -/
def spec_add_repaint (region : QRegion) (o : output) : output :=
  if region = ∅ then
    o
  else
    let o := { o with repaints_region := o.repaints_region ∪ region, idle := false }
    if o.delay_timer || o.swap_pending then o else { o with delay_timer := true }

/-- Modelled from the spec: the deadline timer fires (the start of `output::run`, whose body is
not among the sources). The accumulated region is handed to the render and accumulation starts
anew. -/
def spec_deadline_fire (o : output) : QRegion × output :=
  (o.repaints_region, { o with repaints_region := ∅, delay_timer := false })

/-- A sequence of `add_repaint` calls on one scheduler, first call first. -/
def add_repaints (regions : List QRegion) (o : output) : output :=
  regions.foldl (fun o region => spec_add_repaint region o) o

/-- The world with the scheduler body `add_repaint` as the spec describes it. -/
def spec_scheduler (w : world) : world :=
  { w with add_repaint := spec_add_repaint }

end render.wayland

namespace render.wayland

/-- The handler of `Workspace::destroyed`: the delay timer of every scheduler of the output map
is stopped. -/
def workspace_destroyed (c : compositor) : compositor :=
  { c with outputs := c.outputs.map (fun kv => (kv.1, { kv.2 with delay_timer := false })) }

/-- The loop of `compositor::performCompositing` over the output map; `run` is the body of
`output::run`, which is not among the sources. -/
def performCompositing_loop (run : output → output) :
    List (output_id × output) → List (output_id × output) × List sched_call
  | [] => ([], [])
  | (key, render_output) :: rest =>
    let done := performCompositing_loop run rest
    ((key, run render_output) :: done.1, sched_call.run key :: done.2)

/-- The function `compositor::performCompositing`; it returns an empty deque of windows. -/
def performCompositing (run : output → output) (c : compositor) :
    compositor × List window_id :=
  let done := performCompositing_loop run c.outputs
  ({ c with outputs := done.1, calls := c.calls ++ done.2 }, [])

end render.wayland

namespace render.backend.wlroots

/-! ## The wlroots QPainter output -/

/-- The state of a `qpainter_output`: the bytes of its `QImage` buffer (`none` is a null
buffer), the data of the current pixman image of the renderer, the `swap_pending` flag of the
output it refers to, and the call log. -/
structure qpainter_output where
  buffer : Option (List Nat)
  pixman_data : List Nat
  swap_pending : Bool
  calls : List wlr_call
deriving DecidableEq

/-- Record one more external call. -/
def qpainter_output.call (out : qpainter_output) (c : wlr_call) : qpainter_output :=
  { out with calls := out.calls ++ [c] }

/-- The function `qpainter_output::present`; `none` when the buffer is null. The bytes of the
buffer are copied over the start of the pixman data. -/
def qpainter_output.present (env : wlr_env) (out : qpainter_output) : Option qpainter_output :=
  match out.buffer with
  | none => none
  | some buffer_bits =>
    let out := { out with pixman_data := buffer_bits ++ out.pixman_data.drop buffer_bits.length }
    let out := { out with swap_pending := true }
    let out := if !env.native_enabled then out.call .output_enable else out
    let out := out.call .output_test
    if !env.test_ok then
      some (out.call .output_rollback)
    else
      let out := out.call .output_commit
      if !env.commit_ok then some out else some out

end render.backend.wlroots

namespace ThumbnailAsideEffect

/-! ## The thumbnail aside effect -/

/-- An `EffectWindow*`. -/
abbrev EffectWindow := Nat

/-- The members `window` and `index` of `ThumbnailAsideEffect::Data`. The member `rect` is
computed by `arrange` in floating point and read by the painting only; it is left out. -/
structure Data where
  window : EffectWindow
  index : Int
deriving DecidableEq

/-- The hash `windows`, as the list of its entries. The iteration order of a `QHash` is not
specified; the list keeps the order of insertion. -/
abbrev Windows := List (EffectWindow × Data)

/-- The test `windows.contains(w)`. -/
def contains (windows : Windows) (w : EffectWindow) : Bool :=
  windows.any (fun e => decide (e.1 = w))

/-- The entry `windows[w]` of a window that is in the hash. -/
def value (windows : Windows) (w : EffectWindow) : Option Data :=
  (windows.find? (fun e => decide (e.1 = w))).map Prod.snd

/-- The assignment `windows[w] = d`. -/
def assign (w : EffectWindow) (d : Data) : Windows → Windows
  | [] => [(w, d)]
  | (k, old) :: rest => if k = w then (k, d) :: rest else (k, old) :: assign w d rest

/-- The assignment `pos[i] = v` on a `QVector<int>`; `none` when `i` is outside the vector. -/
def set_pos (pos : List Int) (i : Int) (v : Int) : Option (List Int) :=
  if 0 ≤ i ∧ i < (pos.length : Int) then some (pos.set i.toNat v) else none

/-- The first loop of `arrange`: `pos[d.index] = d.window->height()` for every entry. -/
def fill_pos (height : EffectWindow → Int) : Windows → List Int → Option (List Int)
  | [], pos => some pos
  | (_, d) :: rest, pos =>
    match set_pos pos d.index (height d.window) with
    | none => none
    | some pos2 => fill_pos height rest pos2

/-- The vector accesses of `ThumbnailAsideEffect::arrange`: the vector `pos` of
`windows.size()` zeros after the first loop, or `none` when an access `pos[d.index]` is outside
the vector. The last loop reads `pos` at the same indices; the scale and the rectangles, which
are computed in floating point, are no part of this. -/
def arrange (height : EffectWindow → Int) (windows : Windows) : Option (List Int) :=
  if windows.length = 0 then some []
  else fill_pos height windows (List.replicate windows.length 0)

/-- The function `ThumbnailAsideEffect::addThumbnail`. -/
def addThumbnail (height : EffectWindow → Int) (windows : Windows) (w : EffectWindow) :
    Option Windows :=
  let d : Data := { window := w, index := (windows.length : Int) }
  let windows := assign w d windows
  (arrange height windows).map (fun _ => windows)

/-- The function `ThumbnailAsideEffect::removeThumbnail`. -/
def removeThumbnail (height : EffectWindow → Int) (windows : Windows) (w : EffectWindow) :
    Option Windows :=
  if !contains windows w then
    some windows
  else
    match value windows w with
    | none => some windows
    | some removed =>
      let index := removed.index
      let windows := windows.filter (fun e => decide (e.1 ≠ w))
      let windows := windows.map
        (fun e => if e.2.index > index then (e.1, { e.2 with index := e.2.index - 1 }) else e)
      (arrange height windows).map (fun _ => windows)

/-- The function `ThumbnailAsideEffect::toggleCurrentThumbnail`; `active` is the answer of
`effects->activeWindow()`, `none` for a null pointer. -/
def toggleCurrentThumbnail (height : EffectWindow → Int) (windows : Windows)
    (active : Option EffectWindow) : Option Windows :=
  match active with
  | none => some windows
  | some w =>
    if contains windows w then removeThumbnail height windows w
    else addThumbnail height windows w

/-- The function `ThumbnailAsideEffect::slotWindowClosed`. -/
def slotWindowClosed (height : EffectWindow → Int) (windows : Windows) (w : EffectWindow) :
    Option Windows :=
  removeThumbnail height windows w

/-- What happens to the effect: the shortcut is triggered while a window is active or none
is, or a window is closed. -/
inductive event where
  | toggle (active : Option EffectWindow)
  | window_closed (w : EffectWindow)
deriving DecidableEq

/-- A sequence of events on the effect, first event first; `none` as soon as `arrange`
reaches outside its vector. -/
def run_events (height : EffectWindow → Int) : Windows → List event → Option Windows
  | windows, [] => some windows
  | windows, event.toggle active :: rest =>
    match toggleCurrentThumbnail height windows active with
    | none => none
    | some windows2 => run_events height windows2 rest
  | windows, event.window_closed w :: rest =>
    match slotWindowClosed height windows w with
    | none => none
    | some windows2 => run_events height windows2 rest

end ThumbnailAsideEffect

namespace ThumbnailAsideEffect

/-- The thumbnails are numbered: no window is tracked twice, no index is used twice, and every
index is one of `0 .. n-1` for the `n` tracked windows. -/
def numbered (windows : Windows) : Prop :=
  (windows.map Prod.fst).Nodup ∧ (windows.map (fun e => e.2.index)).Nodup ∧
    ∀ e ∈ windows, 0 ≤ e.2.index ∧ e.2.index < (windows.length : Int)

end ThumbnailAsideEffect

namespace QRect

/-- The test `QRect::isEmpty()`: the rectangle has no extent in one direction. -/
def isEmpty (r : QRect) : Bool :=
  decide (r.width ≤ 0 ∨ r.height ≤ 0)

/-- The rectangle `a.intersected(b)` of two rectangles given by corner and size: their common
part, and a rectangle without extent when they have none. A rectangle of negative extent is
taken as empty. -/
def intersected (a b : QRect) : QRect :=
  if a.isEmpty ∨ b.isEmpty then
    ⟨0, 0, 0, 0⟩
  else
    let left := max a.x b.x
    let top := max a.y b.y
    let right := min (a.x + a.width) (b.x + b.width)
    let bottom := min (a.y + a.height) (b.y + b.height)
    if right ≤ left ∨ bottom ≤ top then ⟨0, 0, 0, 0⟩
    else ⟨left, top, right - left, bottom - top⟩

/-- The test `a.intersects(b)`: the two rectangles have a common part. -/
def intersects (a b : QRect) : Bool :=
  !(a.intersected b).isEmpty

end QRect

namespace win.x11

/-! ## Space areas of X11 windows with struts -/

/-- A `StrutRect`: a rectangle with the strut area it belongs to. -/
structure StrutRect where
  rect : QRect
  area : Nat
deriving DecidableEq

/-- The `space_areas`: per desktop the work area and the restricted-move rectangles, per
desktop and screen the screen area. The vectors are taken as total maps: the callers size them
for all desktops and screens. -/
structure space_areas where
  work : Nat → QRect
  restrictedmove : Nat → List StrutRect
  screen : Nat → Nat → QRect

/-- What `update_space_areas` asks of its window, with the answers of the helpers
`adjusted_client_area`, `strut_rects` and `has_offscreen_xinerama_strut`, which are not among
the sources. -/
structure strut_window where
  hasStrut : Bool
  isOnAllDesktops : Bool
  desktop : Nat
  screen : Nat
  /-- The rectangle `adjusted_client_area(win, desktop_area, area)`. -/
  adjusted_client_area : QRect → QRect → QRect
  strut_rects : List StrutRect
  has_offscreen_xinerama_strut : Bool

/-- The answers of `Screens::self()` and of `VirtualDesktopManager::self()`. -/
structure screens_info where
  count : Nat
  geometry : Nat → QRect
  desktops_count : Nat

/-- The sanity check of `update_space_areas`: when the client area misses one screen
completely, the desktop area is used in its place. -/
def checked_client_area (screens : screens_info) (desktop_area client_area : QRect) : QRect :=
  if (List.range screens.count).any
      (fun screen => !client_area.intersects (screens.geometry screen)) then
    desktop_area
  else
    client_area

/-- The loop over the screens for one desktop: a screen area is cut to the client area on that
screen unless nothing of it would be left. -/
def update_screen_areas (win : strut_window) (desktop_area : QRect)
    (screens_geos : Nat → QRect) (screens_count : Nat) (row : Nat → QRect) : Nat → QRect :=
  (List.range screens_count).foldl
    (fun row screen =>
      let geo := (row screen).intersected
        (win.adjusted_client_area desktop_area (screens_geos screen))
      if !geo.isEmpty then Function.update row screen geo else row)
    row

/-- The body of `update_space_areas` for one desktop. -/
def update_desktop (win : strut_window) (screens : screens_info) (desktop_area : QRect)
    (screens_geos : Nat → QRect) (client_area : QRect) (strut_region : List StrutRect)
    (areas : space_areas) (desktop : Nat) : space_areas :=
  { work :=
      if !win.has_offscreen_xinerama_strut then
        Function.update areas.work desktop ((areas.work desktop).intersected client_area)
      else areas.work,
    restrictedmove :=
      Function.update areas.restrictedmove desktop
        (areas.restrictedmove desktop ++ strut_region),
    screen :=
      Function.update areas.screen desktop
        (update_screen_areas win desktop_area screens_geos screens.count
          (areas.screen desktop)) }

/-- The function `win::x11::update_space_areas`. -/
def update_space_areas (win : strut_window) (screens : screens_info) (desktop_area : QRect)
    (screens_geos : Nat → QRect) (areas : space_areas) : space_areas :=
  if !win.hasStrut then
    areas
  else
    let client_area := checked_client_area screens desktop_area
      (win.adjusted_client_area desktop_area desktop_area)
    let clientsScreenRect := screens.geometry win.screen
    let strut_region := win.strut_rects.map
      (fun strut => { strut with rect := strut.rect.intersected clientsScreenRect })
    if win.isOnAllDesktops then
      (List.range' 1 screens.desktops_count).foldl
        (update_desktop win screens desktop_area screens_geos client_area strut_region) areas
    else
      update_desktop win screens desktop_area screens_geos client_area strut_region areas
        win.desktop

end win.x11

namespace input

/-! ## Mouse button codes -/

/-- The button code `BTN_LEFT` of `linux/input-event-codes.h`. -/
def BTN_LEFT : Nat := 0x110
/-- The button code `BTN_RIGHT`. -/
def BTN_RIGHT : Nat := 0x111
/-- The button code `BTN_MIDDLE`. -/
def BTN_MIDDLE : Nat := 0x112
/-- The button code `BTN_SIDE`. -/
def BTN_SIDE : Nat := 0x113
/-- The button code `BTN_EXTRA`. -/
def BTN_EXTRA : Nat := 0x114
/-- The button code `BTN_FORWARD`. -/
def BTN_FORWARD : Nat := 0x115
/-- The button code `BTN_BACK`. -/
def BTN_BACK : Nat := 0x116
/-- The button code `BTN_TASK`. -/
def BTN_TASK : Nat := 0x117

namespace Qt

/-- The value `Qt::LeftButton` of the enumeration `Qt::MouseButton` (`qnamespace.h`). -/
def LeftButton : Nat := 0x1
/-- The value `Qt::RightButton`. -/
def RightButton : Nat := 0x2
/-- The value `Qt::MiddleButton`. -/
def MiddleButton : Nat := 0x4
/-- The value `Qt::BackButton`; `Qt::ExtraButton1` is the same enumerator value. -/
def BackButton : Nat := 0x8
/-- The value `Qt::ExtraButton1`. -/
def ExtraButton1 : Nat := 0x8
/-- The value `Qt::ForwardButton`; `Qt::ExtraButton2` is the same enumerator value. -/
def ForwardButton : Nat := 0x10
/-- The value `Qt::ExtraButton2`. -/
def ExtraButton2 : Nat := 0x10
/-- The value `Qt::TaskButton`. -/
def TaskButton : Nat := 0x20
/-- The value `Qt::ExtraButton6`. -/
def ExtraButton6 : Nat := 0x100
/-- The value `Qt::ExtraButton7`. -/
def ExtraButton7 : Nat := 0x200
/-- The value `Qt::ExtraButton8`. -/
def ExtraButton8 : Nat := 0x400
/-- The value `Qt::ExtraButton9`. -/
def ExtraButton9 : Nat := 0x800
/-- The value `Qt::ExtraButton10`. -/
def ExtraButton10 : Nat := 0x1000
/-- The value `Qt::ExtraButton11`. -/
def ExtraButton11 : Nat := 0x2000
/-- The value `Qt::ExtraButton12`. -/
def ExtraButton12 : Nat := 0x4000
/-- The value `Qt::ExtraButton13`. -/
def ExtraButton13 : Nat := 0x8000
/-- The value `Qt::ExtraButton24`. -/
def ExtraButton24 : Nat := 0x4000000

end Qt

/-- The entries of the hash `button_map`, as they are listed in the source. -/
def button_map : List (Nat × Nat) :=
  [(BTN_LEFT, Qt.LeftButton),
   (BTN_MIDDLE, Qt.MiddleButton),
   (BTN_RIGHT, Qt.RightButton),
   (BTN_SIDE, Qt.ExtraButton1),
   (BTN_EXTRA, Qt.ExtraButton2),
   (BTN_BACK, Qt.BackButton),
   (BTN_FORWARD, Qt.ForwardButton),
   (BTN_TASK, Qt.TaskButton),
   (0x118, Qt.ExtraButton6),
   (0x119, Qt.ExtraButton7),
   (0x11a, Qt.ExtraButton8),
   (0x11b, Qt.ExtraButton9),
   (0x11c, Qt.ExtraButton10),
   (0x11d, Qt.ExtraButton11),
   (0x11e, Qt.ExtraButton12),
   (0x11f, Qt.ExtraButton13)]

/-- The function `button_to_qt_mouse_button`: `button_map.value(button, Qt::ExtraButton24)`.
The keys of the hash are distinct, so the order of its entries plays no part. -/
def button_to_qt_mouse_button (button : Nat) : Nat :=
  match button_map.find? (fun e => decide (e.1 = button)) with
  | some e => e.2
  | none => Qt.ExtraButton24

/-- The function `qt_mouse_button_to_button`: `button_map.key(button)`, the first key with that
value in the iteration order of the hash, and the default key 0 when there is none. The
iteration order of a `QHash` is not specified; `order` is the list of the entries in that
order. -/
def qt_mouse_button_to_button (order : List (Nat × Nat)) (button : Nat) : Nat :=
  match order.find? (fun e => decide (e.2 = button)) with
  | some e => e.1
  | none => 0

end input

/-! ## Concrete inputs -/

namespace render.wayland

/-- A scheduler at rest. -/
def idle_output : output :=
  { msc := 0, delay := 0, last_paint_durations := (0, 0), paint_periods := 0,
    repaints_region := ∅, assigned_surfaces := [], idle := true, swap_pending := false,
    delay_timer := false, frame_timer := false }

/-- Two outputs of 2 x 2 pixels side by side, keys 0 and 1; every window covers the pixel
`(0, 0)`; the scheduler bodies leave a mark of the call in the scheduler they act on. -/
def two_outputs : world :=
  { geometry := fun key => if key = 0 then ⟨0, 0, 2, 2⟩ else ⟨2, 0, 2, 2⟩,
    visible_rect := fun _ => ⟨0, 0, 1, 1⟩,
    max_coverage_output := fun _ => some 0,
    space := QRect.toRegion ⟨0, 0, 4, 2⟩,
    add_repaint := fun region o => { o with repaints_region := o.repaints_region ∪ region },
    set_delay_timer := fun o => { o with delay_timer := true },
    request_frame := fun _ o => { o with frame_timer := true } }

/-- A compositor over both outputs with the given lock counter. -/
def compositor_with_lock (locked : Int) : compositor :=
  { locked := locked, outputs := [(0, idle_output), (1, idle_output)], calls := [] }

/-- The two outputs, with windows that are on no output at all. -/
def no_coverage : world :=
  { two_outputs with max_coverage_output := fun _ => none }

/-- A scheduler with a repaint under way. -/
def busy_output : output :=
  { idle_output with idle := false, delay_timer := true }

/-- A window that was painted on outputs 1, 0 and again 1. -/
def sample_window : window :=
  { id := 7, repaint_outputs := [1, 0, 1] }

end render.wayland

namespace render.backend.wlroots

/-- The geometry of an output of 2 x 2 pixels at the origin. -/
def small_geometry : QRect := ⟨0, 0, 2, 2⟩

/-- An outside world in which test and commit succeed. -/
def env_ok : wlr_env :=
  { buffer_age := 2, timer_query := false, native_enabled := true, test_ok := true,
    commit_ok := true, new_surf := some 1 }

/-- An outside world in which the atomic test fails. -/
def env_test_fails : wlr_env := { env_ok with test_ok := false }

/-- An outside world in which the commit fails after a good test. -/
def env_commit_fails : wlr_env := { env_ok with commit_ok := false }

/-- An output with two frames of damage on record and a buffer of the given age. -/
def aged_output (bufferAge : Int) : egl_output :=
  { bufferAge := bufferAge, damageHistory := [{(0, 0)}, {(1, 1)}], surf := 0,
    swap_pending := false, calls := [] }

/-- A frame that damages the pixel `(0, 0)` of the small output and presents well. -/
def good_frame : frame :=
  { env := env_ok, geometry := small_geometry, renderedRegion := {(0, 0)},
    damagedRegion := {(0, 0)} }

/-- Eleven such frames in a row. -/
def eleven_good_frames : List frame := List.replicate 11 good_frame

end render.backend.wlroots

namespace render.backend.wlroots

/-- A QPainter output with a buffer of one pixel and no presentation in flight. -/
def painted_output : qpainter_output :=
  { buffer := some [1, 2, 3, 4], pixman_data := [0, 0, 0, 0], swap_pending := false,
    calls := [] }

end render.backend.wlroots

namespace render.wayland

/-- A compositor over both outputs in which the frame timer of output 1 runs. -/
def compositor_with_frame_timer : compositor :=
  { locked := 0,
    outputs := [(0, idle_output), (1, { idle_output with delay_timer := true, frame_timer := true })],
    calls := [] }

end render.wayland

namespace win.x11

/-- A panel window with a strut on desktop 2. -/
def panel : strut_window :=
  { hasStrut := true, isOnAllDesktops := false, desktop := 2, screen := 0,
    adjusted_client_area := fun _ area => ⟨area.x, area.y + 1, area.width, area.height - 1⟩,
    strut_rects := [⟨⟨0, 0, 4, 1⟩, 0⟩], has_offscreen_xinerama_strut := false }

/-- One screen of 4 x 4 pixels and two desktops. -/
def one_screen : screens_info :=
  { count := 1, geometry := fun _ => ⟨0, 0, 4, 4⟩, desktops_count := 2 }

/-- Areas that are the whole screen everywhere. -/
def full_areas : space_areas :=
  { work := fun _ => ⟨0, 0, 4, 4⟩, restrictedmove := fun _ => [],
    screen := fun _ _ => ⟨0, 0, 4, 4⟩ }

end win.x11

/-! ## Lemmas -/

theorem mem_united (rs : List QRegion) (p : QPoint) :
    p ∈ united rs ↔ ∃ r ∈ rs, p ∈ r := by
  induction rs with
  | nil => simp [united]
  | cons r rs ih =>
    have hstep : united (r :: rs) = r ∪ united rs := rfl
    rw [hstep, Finset.mem_union, ih]
    simp

namespace render.backend.wlroots

theorem mem_accumulate_damage (h : List QRegion) (n : Nat) (p : QPoint) :
    p ∈ accumulate_damage h n ↔ ∃ i, i < n ∧ p ∈ h.getD i ∅ := by
  induction n with
  | zero => simp [accumulate_damage]
  | succ n ih =>
    have hstep : accumulate_damage h (n + 1) = accumulate_damage h n ∪ h.getD n ∅ := by
      simp [accumulate_damage, List.range_succ, List.foldl_append]
    rw [hstep, Finset.mem_union, ih]
    constructor
    · rintro (⟨i, hi, hp⟩ | hp)
      · exact ⟨i, Nat.lt_succ_of_lt hi, hp⟩
      · exact ⟨n, Nat.lt_succ_self n, hp⟩
    · rintro ⟨i, hi, hp⟩
      rcases Nat.lt_succ_iff_lt_or_eq.mp hi with hlt | heq
      · exact Or.inl ⟨i, hlt, hp⟩
      · exact Or.inr (heq ▸ hp)

theorem accumulate_damage_eq_united (h : List QRegion) (n : Nat) (hn : n ≤ h.length) :
    accumulate_damage h n = united (h.take n) := by
  ext p
  rw [mem_accumulate_damage, mem_united]
  constructor
  · rintro ⟨i, hi, hp⟩
    have hlen : i < h.length := lt_of_lt_of_le hi hn
    refine ⟨h[i], ?_, ?_⟩
    · rw [List.mem_take_iff_getElem]
      exact ⟨i, by simp [hi, hlen], rfl⟩
    · rw [List.getD_eq_getElem _ _ hlen] at hp
      exact hp
  · rintro ⟨r, hr, hp⟩
    rw [List.mem_take_iff_getElem] at hr
    obtain ⟨i, hi, rfl⟩ := hr
    have hi2 : i < n ∧ i < h.length := by simpa using hi
    exact ⟨i, hi2.1, by rw [List.getD_eq_getElem _ _ hi2.2]; exact hp⟩

theorem call_keeps (out : egl_output) (c : wlr_call) :
    (out.call c).bufferAge = out.bufferAge ∧ (out.call c).damageHistory = out.damageHistory ∧
      (out.call c).swap_pending = out.swap_pending ∧ (out.call c).surf = out.surf :=
  ⟨rfl, rfl, rfl, rfl⟩

theorem reset_keeps (env : wlr_env) (out : egl_output) :
    (reset env out).2.bufferAge = out.bufferAge ∧
      (reset env out).2.damageHistory = out.damageHistory ∧
      (reset env out).2.swap_pending = out.swap_pending := by
  unfold reset
  cases env.new_surf <;> exact ⟨rfl, rfl, rfl⟩

theorem present_result (env : wlr_env) (out : egl_output) :
    (present env out).1 = (env.test_ok && env.commit_ok) := by
  unfold present
  cases env.test_ok <;> cases env.commit_ok <;> rfl

theorem present_keeps (env : wlr_env) (out : egl_output) :
    (present env out).2.bufferAge = out.bufferAge ∧
      (present env out).2.damageHistory = out.damageHistory ∧
      (present env out).2.swap_pending = true := by
  unfold present
  cases env.test_ok <;> cases env.commit_ok <;> cases env.native_enabled <;>
    simp [call_keeps, reset_keeps]

/-- The history entries that survive a recording: all but the oldest once more than ten are on
record. -/
theorem end_frame_presented (env : wlr_env) (geometry : QRect) (out : egl_output)
    (renderedRegion damagedRegion : QRegion) (hne : damagedRegion ∩ geometry.toRegion ≠ ∅)
    (ht : env.test_ok = true) (hc : env.commit_ok = true) :
    (endRenderingFrameForScreen true env geometry out renderedRegion damagedRegion).damageHistory
      = (damagedRegion ∩ geometry.toRegion) ::
          (if out.damageHistory.length > 10 then out.damageHistory.dropLast
            else out.damageHistory) := by
  have hres (o : egl_output) : (present env o).1 = true := by
    rw [present_result, ht, hc]; rfl
  cases htq : env.timer_query <;>
    simp only [endRenderingFrameForScreen, if_neg hne, hres, Bool.not_true, Bool.false_eq_true,
      if_false, if_true, (present_keeps env _).2.1, (call_keeps _ _).2.1, htq]

theorem end_frame_failed (supportsBufferAge : Bool) (env : wlr_env) (geometry : QRect)
    (out : egl_output) (renderedRegion damagedRegion : QRegion)
    (hne : damagedRegion ∩ geometry.toRegion ≠ ∅)
    (hf : env.test_ok = false ∨ env.commit_ok = false) :
    (endRenderingFrameForScreen supportsBufferAge env geometry out renderedRegion
        damagedRegion).damageHistory = out.damageHistory ∧
      (endRenderingFrameForScreen supportsBufferAge env geometry out renderedRegion
        damagedRegion).bufferAge = out.bufferAge ∧
      (endRenderingFrameForScreen supportsBufferAge env geometry out renderedRegion
        damagedRegion).swap_pending = false := by
  have hres (o : egl_output) : (present env o).1 = false := by
    rw [present_result]
    rcases hf with h | h <;> simp [h]
  cases htq : env.timer_query <;>
    simp only [endRenderingFrameForScreen, if_neg hne, hres, Bool.not_false, if_true,
      Bool.false_eq_true, if_false, (present_keeps env _).2.1, (present_keeps env _).1,
      (call_keeps _ _).2.1, (call_keeps _ _).1, htq, and_self]

theorem end_frame_history (supportsBufferAge : Bool) (env : wlr_env) (geometry : QRect)
    (out : egl_output) (renderedRegion damagedRegion : QRegion) :
    (endRenderingFrameForScreen supportsBufferAge env geometry out renderedRegion
        damagedRegion).damageHistory = out.damageHistory ∨
      (endRenderingFrameForScreen supportsBufferAge env geometry out renderedRegion
        damagedRegion).damageHistory
        = (damagedRegion ∩ geometry.toRegion) ::
            (if out.damageHistory.length > 10 then out.damageHistory.dropLast
              else out.damageHistory) := by
  by_cases hne : damagedRegion ∩ geometry.toRegion = ∅
  · left
    simp only [endRenderingFrameForScreen, if_pos hne]
    split_ifs <;> rfl
  · by_cases hok : env.test_ok = true ∧ env.commit_ok = true
    · cases supportsBufferAge
      · left
        have hres (o : egl_output) : (present env o).1 = true := by
          rw [present_result, hok.1, hok.2]; rfl
        cases htq : env.timer_query <;>
          simp only [endRenderingFrameForScreen, if_neg hne, hres, Bool.not_true,
            Bool.false_eq_true, if_false, if_true, (present_keeps env _).2.1,
            (call_keeps _ _).2.1, htq]
      · right
        exact end_frame_presented env geometry out renderedRegion damagedRegion hne hok.1 hok.2
    · left
      have hf : env.test_ok = false ∨ env.commit_ok = false := by
        cases h1 : env.test_ok <;> cases h2 : env.commit_ok <;> simp_all
      exact (end_frame_failed supportsBufferAge env geometry out renderedRegion damagedRegion
        hne hf).1

theorem end_frame_length_le (supportsBufferAge : Bool) (env : wlr_env) (geometry : QRect)
    (out : egl_output) (renderedRegion damagedRegion : QRegion)
    (h : out.damageHistory.length ≤ 11) :
    (endRenderingFrameForScreen supportsBufferAge env geometry out renderedRegion
        damagedRegion).damageHistory.length ≤ 11 := by
  rcases end_frame_history supportsBufferAge env geometry out renderedRegion damagedRegion
    with heq | heq
  · rw [heq]; exact h
  · rw [heq]
    split_ifs with hlen
    · simp only [List.length_cons, List.length_dropLast]; omega
    · simp only [List.length_cons]; omega

end render.backend.wlroots

namespace render.wayland

theorem addRepaint_loop_eq (w : world) (region : QRegion) (outputs : List (output_id × output)) :
    addRepaint_loop w region outputs
      = (outputs.map (fun kv => (kv.1, w.add_repaint region kv.2)),
          outputs.map (fun kv => sched_call.add_repaint kv.1 region)) := by
  induction outputs with
  | nil => rfl
  | cons kv rest ih =>
    obtain ⟨key, output⟩ := kv
    simp only [addRepaint_loop, ih, List.map_cons]

theorem set_output_keys (key : output_id) (v : output) (l : List (output_id × output)) :
    (set_output key v l).map Prod.fst = l.map Prod.fst := by
  induction l with
  | nil => rfl
  | cons kv rest ih =>
    obtain ⟨k, o⟩ := kv
    by_cases hk : k = key
    · simp [set_output, hk]
    · simp [set_output, hk, ih]

theorem find_set_output_same (key : output_id) (v s : output) (l : List (output_id × output))
    (h : find_output key l = some s) : find_output key (set_output key v l) = some v := by
  induction l with
  | nil => simp [find_output] at h
  | cons kv rest ih =>
    obtain ⟨k, o⟩ := kv
    by_cases hk : k = key
    · simp [set_output, find_output, hk]
    · simp only [find_output, if_neg hk] at h
      simp [set_output, find_output, hk, ih h]

theorem find_set_output_other (key other : output_id) (v : output)
    (l : List (output_id × output)) (hne : other ≠ key) :
    find_output other (set_output key v l) = find_output other l := by
  induction l with
  | nil => rfl
  | cons kv rest ih =>
    obtain ⟨k, o⟩ := kv
    by_cases hk : k = key
    · have hko : k ≠ other := fun h => hne (h ▸ hk)
      simp [set_output, find_output, hk, hko, Ne.symm hne]
    · by_cases hko : k = other
      · subst hko
        simp [set_output, find_output, hk]
      · simp [set_output, find_output, hk, hko, ih]

theorem check_idle_loop_iff (l : List (output_id × output)) :
    check_idle_loop l = true ↔ ∀ kv ∈ l, kv.2.idle = true := by
  induction l with
  | nil => simp [check_idle_loop]
  | cons kv rest ih =>
    obtain ⟨k, o⟩ := kv
    cases hi : o.idle <;> simp [check_idle_loop, hi, ih]

theorem find_output_isSome_iff (key : output_id) (l : List (output_id × output)) :
    (find_output key l).isSome = true ↔ key ∈ l.map Prod.fst := by
  induction l with
  | nil => simp [find_output]
  | cons kv rest ih =>
    obtain ⟨k, o⟩ := kv
    by_cases hk : k = key
    · simp [find_output, hk]
    · simp [find_output, hk, ih, Ne.symm hk]

theorem find_output_eq_none_iff (key : output_id) (l : List (output_id × output)) :
    find_output key l = none ↔ key ∉ l.map Prod.fst := by
  rw [← find_output_isSome_iff]
  cases find_output key l <;> simp

theorem erase_output_of_not_mem (removed : output_id) (l : List (output_id × output))
    (h : removed ∉ l.map Prod.fst) : erase_output removed l = l := by
  induction l with
  | nil => rfl
  | cons kv rest ih =>
    obtain ⟨k, o⟩ := kv
    simp only [List.map_cons, List.mem_cons, not_or] at h
    simp [erase_output, Ne.symm h.1, ih h.2]

theorem erase_output_eq_filter (removed : output_id) (l : List (output_id × output))
    (h : (l.map Prod.fst).Nodup) :
    erase_output removed l = l.filter (fun kv => decide (kv.1 ≠ removed)) := by
  induction l with
  | nil => rfl
  | cons kv rest ih =>
    obtain ⟨k, o⟩ := kv
    simp only [List.map_cons, List.nodup_cons] at h
    by_cases hk : k = removed
    · subst hk
      have hrest : rest.filter (fun kv => decide (kv.1 ≠ k)) = rest := by
        rw [List.filter_eq_self]
        intro kv hkv
        have : kv.1 ≠ k := fun heq => h.1 (heq ▸ List.mem_map_of_mem Prod.fst hkv)
        simpa using this
      rw [List.filter_cons_of_neg (by simp), hrest]
      simp [erase_output]
    · rw [List.filter_cons_of_pos (by simpa using hk), ← ih h.2]
      simp [erase_output, hk]

theorem find_erase_output_other (removed other : output_id) (l : List (output_id × output))
    (hne : other ≠ removed) :
    find_output other (erase_output removed l) = find_output other l := by
  induction l with
  | nil => rfl
  | cons kv rest ih =>
    obtain ⟨k, o⟩ := kv
    by_cases hk : k = removed
    · have hko : k ≠ other := fun h => hne (h ▸ hk)
      simp [erase_output, find_output, hk, hko, Ne.symm hne]
    · by_cases hko : k = other
      · subst hko
        simp [erase_output, find_output, hk]
      · simp [erase_output, find_output, hk, hko, ih]

theorem keys_erase_output (removed : output_id) (l : List (output_id × output))
    (h : (l.map Prod.fst).Nodup) :
    ((erase_output removed l).map Prod.fst).Nodup ∧
      ∀ k, k ∈ (erase_output removed l).map Prod.fst ↔ k ≠ removed ∧ k ∈ l.map Prod.fst := by
  rw [erase_output_eq_filter removed l h]
  refine ⟨(List.Nodup.sublist ((List.filter_sublist l).map Prod.fst) h), fun k => ?_⟩
  simp only [List.mem_map, List.mem_filter, decide_eq_true_eq]
  constructor
  · rintro ⟨kv, ⟨hkv, hne⟩, rfl⟩
    exact ⟨hne, kv, hkv, rfl⟩
  · rintro ⟨hne, kv, hkv, rfl⟩
    exact ⟨kv, ⟨hkv, hne⟩, rfl⟩

theorem keys_emplace (key : output_id) (v : output) (l : List (output_id × output))
    (h : (l.map Prod.fst).Sorted (· < ·)) :
    ((emplace key v l).map Prod.fst).Sorted (· < ·) ∧
      ∀ k, k ∈ (emplace key v l).map Prod.fst ↔ k = key ∨ k ∈ l.map Prod.fst := by
  induction l with
  | nil => simp [emplace]
  | cons kv rest ih =>
    obtain ⟨k0, o⟩ := kv
    simp only [List.map_cons, List.sorted_cons] at h
    obtain ⟨ihs, ihm⟩ := ih h.2
    by_cases hk : key = k0
    · subst hk
      have hval : emplace key v ((key, o) :: rest) = (key, o) :: rest := by simp [emplace]
      rw [hval]
      exact ⟨List.sorted_cons.mpr h, fun k => by simp⟩
    · by_cases hlt : key < k0
      · refine ⟨?_, fun k => ?_⟩
        · simp only [emplace, if_neg hk, if_pos hlt, List.map_cons, List.sorted_cons,
            List.mem_cons]
          refine ⟨?_, h.1, h.2⟩
          rintro b (rfl | hb)
          · exact hlt
          · exact lt_trans hlt (h.1 b hb)
        · simp [emplace, hk, hlt]
      · have hgt : k0 < key := lt_of_le_of_ne (not_lt.mp hlt) (Ne.symm hk)
        refine ⟨?_, fun k => ?_⟩
        · simp only [emplace, if_neg hk, if_neg hlt, List.map_cons, List.sorted_cons]
          refine ⟨fun b hb => ?_, ihs⟩
          rcases (ihm b).mp hb with rfl | hb2
          · exact hgt
          · exact h.1 b hb2
        · simp only [emplace, if_neg hk, if_neg hlt, List.map_cons, List.mem_cons, ihm]
          tauto

theorem keys_sorted_erase_output (removed : output_id) (l : List (output_id × output))
    (h : (l.map Prod.fst).Sorted (· < ·)) :
    ((erase_output removed l).map Prod.fst).Sorted (· < ·) := by
  have hnodup : (l.map Prod.fst).Nodup := h.nodup
  rw [erase_output_eq_filter removed l hnodup]
  exact List.Pairwise.sublist ((List.filter_sublist l).map Prod.fst) h

theorem output_removed_fst (c : compositor) (workspace : Option (List window))
    (removed : output_id) :
    (output_removed c workspace removed).1
      = { c with outputs := erase_output removed c.outputs } := by
  cases workspace <;> rfl

theorem remove_all_eq_filter (arg : output_id) (l : List output_id) :
    remove_all arg l = l.filter (fun x => decide (x ≠ arg)) := by
  induction l with
  | nil => rfl
  | cons x rest ih =>
    by_cases hx : x = arg
    · rw [List.filter_cons_of_neg (by simpa using hx), ← ih]
      simp [remove_all, hx]
    · rw [List.filter_cons_of_pos (by simpa using hx), ← ih]
      simp [remove_all, hx]

/-- The map invariant along hotplug signals: the keys stay in strict order, and they are the
outputs present on the platform. -/
theorem hotplug_invariant (make_output : output_id → output) (events : List hotplug)
    (state : compositor × Option (List window)) (present : Finset output_id)
    (hs : (state.1.outputs.map Prod.fst).Sorted (· < ·))
    (hm : ∀ k, k ∈ state.1.outputs.map Prod.fst ↔ k ∈ present) :
    (((events.foldl (handle_hotplug make_output) state).1.outputs.map Prod.fst).Sorted
        (· < ·)) ∧
      ∀ k, k ∈ (events.foldl (handle_hotplug make_output) state).1.outputs.map Prod.fst ↔
        k ∈ present_outputs present events := by
  induction events generalizing state present with
  | nil => exact ⟨hs, hm⟩
  | cons e rest ih =>
    cases e with
    | output_added o =>
      have hk := keys_emplace o (make_output o) state.1.outputs hs
      refine ih (handle_hotplug make_output state (hotplug.output_added o)) (insert o present)
        hk.1 (fun k => ?_)
      rw [Finset.mem_insert, ← hm k]
      exact hk.2 k
    | output_removed o =>
      have hk := keys_erase_output o state.1.outputs hs.nodup
      refine ih (handle_hotplug make_output state (hotplug.output_removed o)) (present.erase o)
        ?_ (fun k => ?_)
      · simp only [handle_hotplug, output_removed_fst]
        exact keys_sorted_erase_output o state.1.outputs hs
      · simp only [handle_hotplug, output_removed_fst]
        rw [Finset.mem_erase, ← hm k]
        exact hk.2 k

theorem new_compositor_keys (make_output : output_id → output) (get_outputs : List output_id)
    (c : compositor) (hs : (c.outputs.map Prod.fst).Sorted (· < ·)) :
    (((get_outputs.foldl (output_added make_output) c).outputs.map Prod.fst).Sorted (· < ·)) ∧
      ∀ k, k ∈ (get_outputs.foldl (output_added make_output) c).outputs.map Prod.fst ↔
        k ∈ c.outputs.map Prod.fst ∨ k ∈ get_outputs := by
  induction get_outputs generalizing c with
  | nil => simp [hs]
  | cons o rest ih =>
    have hk := keys_emplace o (make_output o) c.outputs hs
    obtain ⟨h1, h2⟩ := ih (output_added make_output c o) hk.1
    refine ⟨h1, fun k => ?_⟩
    rw [List.foldl_cons, h2 k]
    simp only [output_added, hk.2 k, List.mem_cons]
    tauto

theorem addRepaintFull_locked (w : world) (c : compositor) :
    (addRepaintFull w c).locked = c.locked := by
  unfold addRepaintFull addRepaint
  split_ifs <;> rfl

theorem unlock_of_pos (w : world) (c : compositor) (h : 0 < c.locked) :
    ∃ c2, unlock w c = some c2 ∧ c2.locked = c.locked - 1 := by
  by_cases h1 : c.locked - 1 = 0
  · exact ⟨addRepaintFull w { c with locked := c.locked - 1 }, by simp [unlock, h, h1],
      addRepaintFull_locked w _⟩
  · exact ⟨{ c with locked := c.locked - 1 }, by simp [unlock, h, h1], rfl⟩

theorem run_lock_calls_counter (w : world) (calls : List lock_call) (c : compositor)
    (h0 : 0 ≤ c.locked)
    (hb : ∀ n, n ≤ calls.length →
      ((calls.take n).count lock_call.unlock : Int)
        ≤ c.locked + ((calls.take n).count lock_call.lock : Int)) :
    ∃ c2, run_lock_calls w c calls = some c2 ∧
      c2.locked
        = c.locked + (calls.count lock_call.lock : Int) - (calls.count lock_call.unlock : Int) := by
  induction calls generalizing c with
  | nil => exact ⟨c, rfl, by simp⟩
  | cons call rest ih =>
    cases call with
    | lock =>
      have hstep : ∀ n, n ≤ rest.length →
          ((rest.take n).count lock_call.unlock : Int)
            ≤ (lock c).locked + ((rest.take n).count lock_call.lock : Int) := by
        intro n hn
        have := hb (n + 1) (by simpa using hn)
        simp only [List.take_succ_cons, List.count_cons_self, ne_eq, reduceCtorEq,
          not_false_eq_true, List.count_cons_of_ne, Nat.cast_add, Nat.cast_one] at this
        simp only [lock]
        omega
      obtain ⟨c2, hrun, hval⟩ := ih (lock c) (by simp only [lock]; omega) hstep
      refine ⟨c2, by simpa [run_lock_calls] using hrun, ?_⟩
      rw [hval]
      simp only [lock, List.count_cons_self, ne_eq, reduceCtorEq, not_false_eq_true,
        List.count_cons_of_ne, Nat.cast_add, Nat.cast_one]
      omega
    | unlock =>
      have hpos : 0 < c.locked := by
        have := hb 1 (by simp)
        simp only [List.take_succ_cons, List.take_zero, List.count_cons_self, List.count_nil,
          ne_eq, reduceCtorEq, not_false_eq_true, List.count_cons_of_ne, Nat.cast_zero,
          Nat.cast_add, Nat.cast_one] at this
        omega
      obtain ⟨c1, hun, hc1⟩ := unlock_of_pos w c hpos
      have hstep : ∀ n, n ≤ rest.length →
          ((rest.take n).count lock_call.unlock : Int)
            ≤ c1.locked + ((rest.take n).count lock_call.lock : Int) := by
        intro n hn
        have := hb (n + 1) (by simpa using hn)
        simp only [List.take_succ_cons, List.count_cons_self, ne_eq, reduceCtorEq,
          not_false_eq_true, List.count_cons_of_ne, Nat.cast_add, Nat.cast_one] at this
        omega
      obtain ⟨c2, hrun, hval⟩ := ih c1 (by omega) hstep
      refine ⟨c2, by simp [run_lock_calls, hun, hrun], ?_⟩
      rw [hval, hc1]
      simp only [List.count_cons_self, ne_eq, reduceCtorEq, not_false_eq_true,
        List.count_cons_of_ne, Nat.cast_add, Nat.cast_one]
      omega

theorem spec_add_repaint_idem (region : QRegion) (o : output) :
    spec_add_repaint region (spec_add_repaint region o) = spec_add_repaint region o := by
  unfold spec_add_repaint
  by_cases hr : region = ∅
  · simp [hr]
  · cases hd : o.delay_timer <;> cases hs : o.swap_pending <;>
      simp [hr, hd, hs, Finset.union_assoc]

theorem spec_add_repaint_region (region : QRegion) (o : output) :
    (spec_add_repaint region o).repaints_region = o.repaints_region ∪ region := by
  unfold spec_add_repaint
  by_cases hr : region = ∅
  · simp [hr]
  · cases hd : o.delay_timer <;> cases hs : o.swap_pending <;> simp [hr, hd, hs]

theorem add_repaints_region (regions : List QRegion) (o : output) :
    (add_repaints regions o).repaints_region = o.repaints_region ∪ united regions := by
  induction regions generalizing o with
  | nil => simp [add_repaints, united]
  | cons r rest ih =>
    have hstep : add_repaints (r :: rest) o = add_repaints rest (spec_add_repaint r o) := rfl
    have hun : united (r :: rest) = r ∪ united rest := rfl
    rw [hstep, ih, spec_add_repaint_region, hun, Finset.union_assoc]

end render.wayland

theorem united_perm (rs rs2 : List QRegion) (h : rs2.Perm rs) : united rs2 = united rs := by
  ext p
  simp only [mem_united]
  constructor
  · rintro ⟨r, hr, hp⟩
    exact ⟨r, h.mem_iff.mp hr, hp⟩
  · rintro ⟨r, hr, hp⟩
    exact ⟨r, h.mem_iff.mpr hr, hp⟩

namespace render.wayland

theorem performCompositing_loop_eq (run : output → output)
    (outputs : List (output_id × output)) :
    performCompositing_loop run outputs
      = (outputs.map (fun kv => (kv.1, run kv.2)),
          outputs.map (fun kv => sched_call.run kv.1)) := by
  induction outputs with
  | nil => rfl
  | cons kv rest ih =>
    obtain ⟨key, o⟩ := kv
    simp only [performCompositing_loop, ih, List.map_cons]

end render.wayland

namespace render.backend.wlroots

theorem accumulate_damage_subset (h : List QRegion) (n : Nat) (bound : QRegion)
    (hb : ∀ r ∈ h, r ⊆ bound) : accumulate_damage h n ⊆ bound := by
  intro p hp
  rw [mem_accumulate_damage] at hp
  obtain ⟨i, _, hpi⟩ := hp
  by_cases hlen : i < h.length
  · rw [List.getD_eq_getElem _ _ hlen] at hpi
    exact hb _ (List.getElem_mem hlen) hpi
  · rw [List.getD_eq_default _ _ (not_lt.mp hlen)] at hpi
    simp at hpi

theorem accumulate_damage_mono (h : List QRegion) (n m : Nat) (hnm : n ≤ m) :
    accumulate_damage h n ⊆ accumulate_damage h m := by
  intro p hp
  rw [mem_accumulate_damage] at hp ⊢
  obtain ⟨i, hi, hpi⟩ := hp
  exact ⟨i, lt_of_lt_of_le hi hnm, hpi⟩

theorem end_frame_within (supportsBufferAge : Bool) (env : wlr_env) (geometry : QRect)
    (out : egl_output) (renderedRegion damagedRegion : QRegion)
    (h : ∀ r ∈ out.damageHistory, r ⊆ geometry.toRegion) :
    ∀ r ∈ (endRenderingFrameForScreen supportsBufferAge env geometry out renderedRegion
      damagedRegion).damageHistory, r ⊆ geometry.toRegion := by
  rcases end_frame_history supportsBufferAge env geometry out renderedRegion damagedRegion
    with heq | heq
  · rw [heq]; exact h
  · rw [heq]
    intro r hr
    rcases List.mem_cons.mp hr with rfl | hr
    · exact Finset.inter_subset_right
    · split_ifs at hr
      · exact h r (List.dropLast_subset _ hr)
      · exact h r hr

end render.backend.wlroots

namespace ThumbnailAsideEffect

theorem fill_pos_ok (height : EffectWindow → Int) (windows : Windows) (pos : List Int)
    (h : ∀ e ∈ windows, 0 ≤ e.2.index ∧ e.2.index < (pos.length : Int)) :
    ∃ pos2, fill_pos height windows pos = some pos2 ∧ pos2.length = pos.length := by
  induction windows generalizing pos with
  | nil => exact ⟨pos, rfl, rfl⟩
  | cons e rest ih =>
    obtain ⟨k, d⟩ := e
    have hd := h (k, d) (List.mem_cons_self _ _)
    have hset : set_pos pos d.index (height d.window)
        = some (pos.set d.index.toNat (height d.window)) := by
      simp [set_pos, hd.1, hd.2]
    obtain ⟨pos2, hfill, hlen⟩ := ih (pos.set d.index.toNat (height d.window))
      (fun e he => by
        rw [List.length_set]
        exact h e (List.mem_cons_of_mem _ he))
    refine ⟨pos2, ?_, ?_⟩
    · simp [fill_pos, hset, hfill]
    · rw [hlen, List.length_set]

theorem arrange_ok (height : EffectWindow → Int) (windows : Windows)
    (h : ∀ e ∈ windows, 0 ≤ e.2.index ∧ e.2.index < (windows.length : Int)) :
    ∃ pos, arrange height windows = some pos := by
  unfold arrange
  split_ifs with h0
  · exact ⟨[], rfl⟩
  · obtain ⟨pos2, hfill, _⟩ := fill_pos_ok height windows (List.replicate windows.length 0)
      (by simpa using h)
    exact ⟨pos2, hfill⟩

theorem contains_iff (windows : Windows) (w : EffectWindow) :
    contains windows w = true ↔ w ∈ windows.map Prod.fst := by
  simp only [contains, List.any_eq_true, decide_eq_true_eq, List.mem_map]

theorem value_of_contains (windows : Windows) (w : EffectWindow)
    (h : contains windows w = true) : ∃ d, value windows w = some d ∧ (w, d) ∈ windows := by
  induction windows with
  | nil => simp [contains] at h
  | cons e rest ih =>
    obtain ⟨k, d⟩ := e
    by_cases hk : k = w
    · subst hk
      exact ⟨d, by simp [value], List.mem_cons_self _ _⟩
    · have hrest : contains rest w = true := by
        simpa [contains, hk] using h
      obtain ⟨d2, hv, hm⟩ := ih hrest
      refine ⟨d2, ?_, List.mem_cons_of_mem _ hm⟩
      simp only [value] at hv ⊢
      rw [List.find?_cons_of_neg _ (by simpa using hk)]
      exact hv

theorem assign_of_not_mem (w : EffectWindow) (d : Data) (windows : Windows)
    (h : w ∉ windows.map Prod.fst) : assign w d windows = windows ++ [(w, d)] := by
  induction windows with
  | nil => rfl
  | cons e rest ih =>
    obtain ⟨k, old⟩ := e
    simp only [List.map_cons, List.mem_cons, not_or] at h
    simp [assign, Ne.symm h.1, ih h.2]

theorem length_filter_key (windows : Windows) (w : EffectWindow)
    (hn : (windows.map Prod.fst).Nodup) (hw : w ∈ windows.map Prod.fst) :
    (windows.filter (fun e => decide (e.1 ≠ w))).length + 1 = windows.length := by
  induction windows with
  | nil => simp at hw
  | cons e rest ih =>
    obtain ⟨k, d⟩ := e
    simp only [List.map_cons, List.nodup_cons] at hn
    by_cases hk : k = w
    · subst hk
      have hrest : rest.filter (fun e => decide (e.1 ≠ k)) = rest := by
        rw [List.filter_eq_self]
        intro e he
        have : e.1 ≠ k := fun heq => hn.1 (heq ▸ List.mem_map_of_mem Prod.fst he)
        simpa using this
      rw [List.filter_cons_of_neg (by simp), hrest]
      simp
    · have hw2 : w ∈ rest.map Prod.fst := by
        simp only [List.map_cons, List.mem_cons] at hw
        rcases hw with h | h
        · exact absurd h.symm hk
        · exact h
      rw [List.filter_cons_of_pos (by simpa using hk)]
      simp only [List.length_cons]
      rw [ih hn.2 hw2]

end ThumbnailAsideEffect

namespace ThumbnailAsideEffect

theorem addThumbnail_numbered (height : EffectWindow → Int) (windows : Windows)
    (w : EffectWindow) (hn : numbered windows) (hw : w ∉ windows.map Prod.fst) :
    ∃ windows2, addThumbnail height windows w = some windows2 ∧ numbered windows2 := by
  obtain ⟨hkeys, hidx, hbound⟩ := hn
  have hnum : numbered (windows ++ [(w, { window := w, index := (windows.length : Int) })]) := by
    refine ⟨?_, ?_, ?_⟩
    · rw [List.map_append, List.nodup_append]
      refine ⟨hkeys, by simp, ?_⟩
      intro a ha hb
      simp only [List.map_cons, List.map_nil, List.mem_singleton] at hb
      exact hw (hb ▸ ha)
    · rw [List.map_append, List.nodup_append]
      refine ⟨hidx, by simp, ?_⟩
      intro a ha hb
      simp only [List.map_cons, List.map_nil, List.mem_singleton] at hb
      rw [List.mem_map] at ha
      obtain ⟨e, he, rfl⟩ := ha
      have := (hbound e he).2
      omega
    · intro e he
      rw [List.mem_append] at he
      simp only [List.length_append, List.length_singleton, Nat.cast_add, Nat.cast_one]
      rcases he with he | he
      · have := hbound e he
        omega
      · simp only [List.mem_singleton] at he
        subst he
        simp
  obtain ⟨pos, hpos⟩ := arrange_ok height _ hnum.2.2
  refine ⟨windows ++ [(w, { window := w, index := (windows.length : Int) })], ?_, hnum⟩
  simp [addThumbnail, assign_of_not_mem w _ windows hw, hpos]

theorem removeThumbnail_numbered (height : EffectWindow → Int) (windows : Windows)
    (w : EffectWindow) (hn : numbered windows) :
    ∃ windows2, removeThumbnail height windows w = some windows2 ∧ numbered windows2 := by
  by_cases hc : contains windows w = true
  · obtain ⟨hkeys, hidx, hbound⟩ := hn
    obtain ⟨removed, hval, hmem⟩ := value_of_contains windows w hc
    have hinj := List.inj_on_of_nodup_map hidx
    have hlen := length_filter_key windows w hkeys ((contains_iff windows w).mp hc)
    have hsub : List.Sublist (windows.filter (fun e => decide (e.1 ≠ w))) windows :=
      List.filter_sublist windows
    have hin : ∀ e ∈ windows.filter (fun e => decide (e.1 ≠ w)),
        e ∈ windows ∧ e.2.index ≠ removed.index := by
      intro e he
      rw [List.mem_filter] at he
      refine ⟨he.1, fun heq => ?_⟩
      have : e = (w, removed) := hinj he.1 hmem heq
      subst this
      simp at he
    have hnum : numbered ((windows.filter (fun e => decide (e.1 ≠ w))).map
        (fun e => if e.2.index > removed.index
          then (e.1, { e.2 with index := e.2.index - 1 }) else e)) := by
      refine ⟨?_, ?_, ?_⟩
      · have hfst : ((windows.filter (fun e => decide (e.1 ≠ w))).map
            (fun e => if e.2.index > removed.index
              then (e.1, { e.2 with index := e.2.index - 1 }) else e)).map Prod.fst
            = (windows.filter (fun e => decide (e.1 ≠ w))).map Prod.fst := by
          rw [List.map_map]
          apply List.map_congr_left
          intro e _
          simp only [Function.comp_apply]
          split_ifs <;> rfl
        rw [hfst]
        exact List.Nodup.sublist (hsub.map Prod.fst) hkeys
      · rw [List.map_map]
        have hnodup : (windows.filter (fun e => decide (e.1 ≠ w))).Nodup :=
          List.Nodup.sublist hsub (List.Nodup.of_map Prod.fst hkeys)
        apply List.Nodup.map_on _ hnodup
        intro x hx y hy hxy
        have hx2 := hin x hx
        have hy2 := hin y hy
        apply hinj hx2.1 hy2.1
        simp only [Function.comp_apply] at hxy
        have hxi := hx2.2
        have hyi := hy2.2
        split_ifs at hxy with h1 h2 h2 <;> (try simp only at hxy) <;> omega
      · intro e2 he2
        rw [List.mem_map] at he2
        obtain ⟨e, he, rfl⟩ := he2
        have hb := hbound e (hin e he).1
        have hne := (hin e he).2
        have hr : 0 ≤ removed.index ∧ removed.index < (windows.length : Int) :=
          hbound (w, removed) hmem
        simp only [List.length_map]
        have hl : ((windows.filter (fun e => decide (e.1 ≠ w))).length : Int) + 1
            = (windows.length : Int) := by
          exact_mod_cast hlen
        split_ifs with h1
        · simp only
          omega
        · omega
    obtain ⟨pos, hpos⟩ := arrange_ok height _ hnum.2.2
    refine ⟨_, ?_, hnum⟩
    simp only [removeThumbnail, hc, hval, Bool.not_true, Bool.false_eq_true, if_false]
    exact (congrArg (Option.map _) hpos).trans rfl
  · exact ⟨windows, by simp [removeThumbnail, hc], hn⟩

theorem run_events_numbered (height : EffectWindow → Int) (events : List event)
    (windows : Windows) (hn : numbered windows) :
    ∃ windows2, run_events height windows events = some windows2 ∧ numbered windows2 := by
  induction events generalizing windows with
  | nil => exact ⟨windows, rfl, hn⟩
  | cons e rest ih =>
    cases e with
    | toggle active =>
      have hstep : ∃ w2, toggleCurrentThumbnail height windows active = some w2 ∧
          numbered w2 := by
        cases active with
        | none => exact ⟨windows, rfl, hn⟩
        | some w =>
          by_cases hc : contains windows w = true
          · simpa [toggleCurrentThumbnail, hc] using removeThumbnail_numbered height windows w hn
          · have hw : w ∉ windows.map Prod.fst := fun h => hc ((contains_iff windows w).mpr h)
            simpa [toggleCurrentThumbnail, hc] using
              addThumbnail_numbered height windows w hn hw
      obtain ⟨w2, hrun, hn2⟩ := hstep
      obtain ⟨w3, hrest, hn3⟩ := ih w2 hn2
      exact ⟨w3, by simp [run_events, hrun, hrest], hn3⟩
    | window_closed w =>
      obtain ⟨w2, hrun, hn2⟩ := removeThumbnail_numbered height windows w hn
      obtain ⟨w3, hrest, hn3⟩ := ih w2 hn2
      exact ⟨w3, by simp [run_events, slotWindowClosed, hrun, hrest], hn3⟩

theorem numbered_covers (windows : Windows) (hn : numbered windows) (i : Nat)
    (hi : i < windows.length) : (i : Int) ∈ windows.map (fun e => e.2.index) := by
  obtain ⟨_, hidx, hbound⟩ := hn
  have hnat : (windows.map (fun e => e.2.index.toNat)).Nodup := by
    have : windows.map (fun e => e.2.index.toNat)
        = (windows.map (fun e => e.2.index)).map Int.toNat := by
      rw [List.map_map]; rfl
    rw [this]
    apply List.Nodup.map_on _ hidx
    intro x hx y hy hxy
    rw [List.mem_map] at hx hy
    obtain ⟨ex, hex, rfl⟩ := hx
    obtain ⟨ey, hey, rfl⟩ := hy
    have := (hbound ex hex).1
    have := (hbound ey hey).1
    omega
  have hsub : (windows.map (fun e => e.2.index.toNat)).toFinset ⊆ Finset.range windows.length := by
    intro n hn
    rw [List.mem_toFinset, List.mem_map] at hn
    obtain ⟨e, he, rfl⟩ := hn
    have := hbound e he
    rw [Finset.mem_range]
    omega
  have hcard : (windows.map (fun e => e.2.index.toNat)).toFinset.card = windows.length := by
    rw [List.toFinset_card_of_nodup hnat, List.length_map]
  have heq := Finset.eq_of_subset_of_card_le hsub (by rw [hcard, Finset.card_range])
  have hmem : i ∈ (windows.map (fun e => e.2.index.toNat)).toFinset := by
    rw [heq, Finset.mem_range]; exact hi
  rw [List.mem_toFinset, List.mem_map] at hmem
  obtain ⟨e, he, hei⟩ := hmem
  rw [List.mem_map]
  refine ⟨e, he, ?_⟩
  have := (hbound e he).1
  omega

end ThumbnailAsideEffect

namespace QRect

theorem mem_toRegion (r : QRect) (p : QPoint) :
    p ∈ r.toRegion ↔ r.x ≤ p.1 ∧ p.1 < r.x + r.width ∧ r.y ≤ p.2 ∧ p.2 < r.y + r.height := by
  simp only [toRegion, Finset.mem_product, Finset.mem_Ico]
  tauto

theorem isEmpty_iff (r : QRect) : r.isEmpty = true ↔ r.toRegion = ∅ := by
  simp only [isEmpty, decide_eq_true_eq, toRegion, Finset.product_eq_empty,
    Finset.Ico_eq_empty_iff]
  constructor
  · rintro (h | h)
    · left; omega
    · right; omega
  · rintro (h | h)
    · left; omega
    · right; omega

theorem intersected_subset_left (a b : QRect) : (a.intersected b).toRegion ⊆ a.toRegion := by
  intro p hp
  rw [mem_toRegion] at hp ⊢
  unfold intersected at hp
  by_cases h1 : a.isEmpty = true ∨ b.isEmpty = true
  · rw [if_pos h1] at hp
    simp only at hp
    omega
  · rw [if_neg h1] at hp
    simp only at hp
    by_cases h2 : min (a.x + a.width) (b.x + b.width) ≤ max a.x b.x ∨
        min (a.y + a.height) (b.y + b.height) ≤ max a.y b.y
    · rw [if_pos h2] at hp
      simp only at hp
      omega
    · rw [if_neg h2] at hp
      simp only at hp
      have hl := le_max_left a.x b.x
      have hr := min_le_left (a.x + a.width) (b.x + b.width)
      have ht := le_max_left a.y b.y
      have hb := min_le_left (a.y + a.height) (b.y + b.height)
      omega

end QRect

namespace win.x11

/-- A screen area after an update: within the area before, and not empty when that one was
not. -/
theorem update_screen_areas_shrinks (win : strut_window) (desktop_area : QRect)
    (screens_geos : Nat → QRect) (screens_count : Nat) (row : Nat → QRect) (s : Nat) :
    (update_screen_areas win desktop_area screens_geos screens_count row s).toRegion
        ⊆ (row s).toRegion ∧
      ((row s).toRegion ≠ ∅ →
        (update_screen_areas win desktop_area screens_geos screens_count row s).toRegion
          ≠ ∅) := by
  unfold update_screen_areas
  generalize List.range screens_count = l
  induction l generalizing row with
  | nil => exact ⟨Finset.Subset.refl _, fun h => h⟩
  | cons screen rest ih =>
    rw [List.foldl_cons]
    have hstep : ∀ row2 : Nat → QRect,
        (row2 = (if !((row screen).intersected
            (win.adjusted_client_area desktop_area (screens_geos screen))).isEmpty
          then Function.update row screen ((row screen).intersected
            (win.adjusted_client_area desktop_area (screens_geos screen))) else row)) →
        (row2 s).toRegion ⊆ (row s).toRegion ∧
          ((row s).toRegion ≠ ∅ → (row2 s).toRegion ≠ ∅) := by
      intro row2 hrow2
      subst hrow2
      cases hgeo : ((row screen).intersected
          (win.adjusted_client_area desktop_area (screens_geos screen))).isEmpty
      · simp only [Bool.not_false, if_true]
        by_cases hs : s = screen
        · subst hs
          rw [Function.update_same]
          refine ⟨QRect.intersected_subset_left _ _, fun _ hcon => ?_⟩
          rw [← QRect.isEmpty_iff, hgeo] at hcon
          cases hcon
        · rw [Function.update_noteq hs]
          exact ⟨Finset.Subset.refl _, fun h => h⟩
      · simp only [Bool.not_true, Bool.false_eq_true, if_false]
        exact ⟨Finset.Subset.refl _, fun h => h⟩
    obtain ⟨h1, h2⟩ := hstep _ rfl
    obtain ⟨h3, h4⟩ := ih (if !((row screen).intersected
            (win.adjusted_client_area desktop_area (screens_geos screen))).isEmpty
          then Function.update row screen ((row screen).intersected
            (win.adjusted_client_area desktop_area (screens_geos screen))) else row)
    exact ⟨h3.trans h1, fun h => h4 (h2 h)⟩

theorem update_desktop_shrinks (win : strut_window) (screens : screens_info)
    (desktop_area : QRect) (screens_geos : Nat → QRect) (client_area : QRect)
    (strut_region : List StrutRect) (areas : space_areas) (desktop d s : Nat) :
    ((update_desktop win screens desktop_area screens_geos client_area strut_region areas
        desktop).screen d s).toRegion ⊆ (areas.screen d s).toRegion ∧
      ((areas.screen d s).toRegion ≠ ∅ →
        ((update_desktop win screens desktop_area screens_geos client_area strut_region areas
          desktop).screen d s).toRegion ≠ ∅) := by
  simp only [update_desktop]
  by_cases hd : d = desktop
  · subst hd
    rw [Function.update_same]
    exact update_screen_areas_shrinks win desktop_area screens_geos screens.count _ s
  · rw [Function.update_noteq hd]
    exact ⟨Finset.Subset.refl _, fun h => h⟩

theorem update_desktops_shrink (win : strut_window) (screens : screens_info)
    (desktop_area : QRect) (screens_geos : Nat → QRect) (client_area : QRect)
    (strut_region : List StrutRect) (desktops : List Nat) (areas : space_areas) (d s : Nat) :
    ((desktops.foldl
        (update_desktop win screens desktop_area screens_geos client_area strut_region)
        areas).screen d s).toRegion ⊆ (areas.screen d s).toRegion ∧
      ((areas.screen d s).toRegion ≠ ∅ →
        ((desktops.foldl
          (update_desktop win screens desktop_area screens_geos client_area strut_region)
          areas).screen d s).toRegion ≠ ∅) := by
  induction desktops generalizing areas with
  | nil => exact ⟨Finset.Subset.refl _, fun h => h⟩
  | cons desktop rest ih =>
    rw [List.foldl_cons]
    obtain ⟨h1, h2⟩ := update_desktop_shrinks win screens desktop_area screens_geos client_area
      strut_region areas desktop d s
    obtain ⟨h3, h4⟩ := ih (update_desktop win screens desktop_area screens_geos client_area
      strut_region areas desktop)
    exact ⟨h3.trans h1, fun h => h4 (h2 h)⟩

end win.x11

namespace input

/-- The key found for a value that is in the hash belongs to an entry with that value. -/
theorem key_of_value (order : List (Nat × Nat)) (hperm : order.Perm button_map) (v : Nat)
    (hex : ∃ e ∈ button_map, e.2 = v) :
    ∃ e ∈ button_map, e.2 = v ∧ qt_mouse_button_to_button order v = e.1 := by
  obtain ⟨e0, he0, hv0⟩ := hex
  have hsome : (order.find? (fun e => decide (e.2 = v))).isSome = true := by
    rw [List.find?_isSome]
    exact ⟨e0, hperm.mem_iff.mpr he0, by simpa using hv0⟩
  obtain ⟨e, he⟩ := Option.isSome_iff_exists.mp hsome
  refine ⟨e, hperm.mem_iff.mp (List.mem_of_find?_eq_some he), ?_, ?_⟩
  · simpa using List.find?_some he
  · simp [qt_mouse_button_to_button, he]

theorem unshared_values :
    ∀ b ∈ button_map.map Prod.fst, b ∉ [BTN_SIDE, BTN_BACK, BTN_EXTRA, BTN_FORWARD] →
      ∀ e ∈ button_map, e.2 = button_to_qt_mouse_button b → e.1 = b := by
  decide

theorem shared_values :
    (∀ b ∈ [BTN_SIDE, BTN_BACK], ∀ e ∈ button_map, e.2 = button_to_qt_mouse_button b →
        e.1 ∈ [BTN_SIDE, BTN_BACK]) ∧
      ∀ b ∈ [BTN_EXTRA, BTN_FORWARD], ∀ e ∈ button_map, e.2 = button_to_qt_mouse_button b →
        e.1 ∈ [BTN_EXTRA, BTN_FORWARD] := by
  decide

theorem value_in_map :
    ∀ b ∈ button_map.map Prod.fst, ∃ e ∈ button_map, e.2 = button_to_qt_mouse_button b := by
  decide

end input

/-! ## Theorems -/

namespace render.wayland

/-- C1: while the lock counter is nonzero, `addRepaint`, `schedule_repaint` and
`schedule_frame_callback` return at once for every region and window: the compositor state,
that is every scheduler and the log of calls to `add_repaint`, `set_delay_timer` and
`request_frame`, is exactly what it was. -/
theorem locked_requests_are_noops (w : world) (c : compositor) (region : QRegion)
    (window : window_id) (h : c.locked ≠ 0) :
    addRepaint w c region = c ∧ schedule_repaint w c window = c ∧
      schedule_frame_callback w c window = some c := by
  refine ⟨?_, ?_, ?_⟩
  · simp [addRepaint, h]
  · simp [schedule_repaint, h]
  · simp [schedule_frame_callback, h]

theorem locked_requests_are_noops_witness :
    addRepaint two_outputs (compositor_with_lock 2) {(0, 0)} = compositor_with_lock 2 ∧
      schedule_repaint two_outputs (compositor_with_lock 2) 7 = compositor_with_lock 2 ∧
      schedule_frame_callback two_outputs (compositor_with_lock 2) 7
        = some (compositor_with_lock 2) :=
  locked_requests_are_noops two_outputs (compositor_with_lock 2) {(0, 0)} 7 (by decide)

/-- C2: an `unlock()` on a held lock lowers the counter by one and calls `addRepaintFull`
exactly when the counter goes from 1 to 0; when the counter stays above 0 nothing is called
and no scheduler changes. -/
theorem unlock_repaints_exactly_at_zero (w : world) (c : compositor) (h : 0 < c.locked) :
    ∃ c2, unlock w c = some c2 ∧ c2.locked = c.locked - 1 ∧
      (sched_call.addRepaintFull ∈ c2.calls.drop c.calls.length ↔ c.locked = 1) ∧
      (c.locked = 1 → c2 = addRepaintFull w { c with locked := 0 }) ∧
      (c.locked ≠ 1 → c2.calls = c.calls ∧ c2.outputs = c.outputs) := by
  by_cases h1 : c.locked = 1
  · refine ⟨addRepaintFull w { c with locked := 0 }, ?_, ?_, ?_, ?_, ?_⟩
    · simp [unlock, h1]
    · simp [addRepaintFull, addRepaint, h1]
    · simp [addRepaintFull, addRepaint, h1]
    · intro _; rfl
    · intro hne; exact absurd h1 hne
  · have hne : c.locked - 1 ≠ 0 := fun h0 => h1 (by omega)
    refine ⟨{ c with locked := c.locked - 1 }, ?_, rfl, ?_, ?_, ?_⟩
    · simp [unlock, h, hne]
    · simp [h1]
    · intro h2; exact absurd h2 h1
    · intro _; exact ⟨rfl, rfl⟩

theorem unlock_repaints_exactly_at_zero_witness :
    ∃ c2, unlock two_outputs (compositor_with_lock 1) = some c2 ∧
      c2.locked = (compositor_with_lock 1).locked - 1 ∧
      (sched_call.addRepaintFull ∈ c2.calls.drop (compositor_with_lock 1).calls.length ↔
        (compositor_with_lock 1).locked = 1) ∧
      ((compositor_with_lock 1).locked = 1 →
        c2 = addRepaintFull two_outputs { compositor_with_lock 1 with locked := 0 }) ∧
      ((compositor_with_lock 1).locked ≠ 1 →
        c2.calls = (compositor_with_lock 1).calls ∧
          c2.outputs = (compositor_with_lock 1).outputs) :=
  unlock_repaints_exactly_at_zero two_outputs (compositor_with_lock 1) (by decide)

end render.wayland

namespace render.backend.wlroots

/-- C3: when the buffer age extension is not supported, or the buffer age is 0, or the buffer
age exceeds the number of recorded history entries, `get_output_render_region` returns the
whole geometry of the output. -/
theorem render_region_full_when_age_unknown (supportsBufferAge : Bool) (geometry : QRect)
    (out : egl_output)
    (h : supportsBufferAge = false ∨ out.bufferAge = 0 ∨
      out.bufferAge > (out.damageHistory.length : Int)) :
    get_output_render_region supportsBufferAge geometry out = geometry.toRegion := by
  unfold get_output_render_region
  rcases h with h | h | h
  · simp [h]
  · simp [h]
  · split_ifs <;> rfl

theorem render_region_full_when_age_unknown_witness :
    get_output_render_region true small_geometry (aged_output 3) = small_geometry.toRegion :=
  render_region_full_when_age_unknown true small_geometry (aged_output 3)
    (Or.inr (Or.inr (by decide)))

/-- C4: with buffer age supported and an age `a` with `1 ≤ a ≤ damageHistory.size()`,
`get_output_render_region` returns the union of the history entries `0 .. a-2`: a pixel is in
the result exactly when it is in one of the first `a-1` entries. -/
theorem render_region_is_union_of_history (geometry : QRect) (out : egl_output)
    (h1 : 1 ≤ out.bufferAge) (h2 : out.bufferAge ≤ (out.damageHistory.length : Int)) :
    get_output_render_region true geometry out
        = united (out.damageHistory.take (out.bufferAge - 1).toNat) ∧
      ∀ p, p ∈ get_output_render_region true geometry out ↔
        ∃ i : Nat, (i : Int) < out.bufferAge - 1 ∧ ∃ r, out.damageHistory[i]? = some r ∧ p ∈ r := by
  have hne : out.bufferAge ≠ 0 := by omega
  have hle : ¬ out.bufferAge > (out.damageHistory.length : Int) := by omega
  have hn : (out.bufferAge - 1).toNat ≤ out.damageHistory.length := by omega
  have hval : get_output_render_region true geometry out
      = accumulate_damage out.damageHistory (out.bufferAge - 1).toNat := by
    simp [get_output_render_region, hne, hle]
  refine ⟨by rw [hval, accumulate_damage_eq_united _ _ hn], fun p => ?_⟩
  rw [hval, mem_accumulate_damage]
  constructor
  · rintro ⟨i, hi, hp⟩
    have hlen : i < out.damageHistory.length := lt_of_lt_of_le hi hn
    refine ⟨i, by omega, out.damageHistory[i], by simp [hlen], ?_⟩
    rw [List.getD_eq_getElem _ _ hlen] at hp
    exact hp
  · rintro ⟨i, hi, r, hr, hp⟩
    have hlen : i < out.damageHistory.length := by
      by_contra hcon
      rw [List.getElem?_eq_none (by omega)] at hr
      cases hr
    refine ⟨i, by omega, ?_⟩
    rw [List.getElem?_eq_getElem hlen] at hr
    cases hr
    rw [List.getD_eq_getElem _ _ hlen]
    exact hp

theorem render_region_is_union_of_history_witness :
    get_output_render_region true small_geometry (aged_output 2)
        = united ((aged_output 2).damageHistory.take ((aged_output 2).bufferAge - 1).toNat) ∧
      ∀ p, p ∈ get_output_render_region true small_geometry (aged_output 2) ↔
        ∃ i : Nat, (i : Int) < (aged_output 2).bufferAge - 1 ∧
          ∃ r, (aged_output 2).damageHistory[i]? = some r ∧ p ∈ r :=
  render_region_is_union_of_history small_geometry (aged_output 2) (by decide) (by decide)

/-- C5 (as stated, refuted): eleven frames presented well on a new output leave eleven entries
in its damage history, more than ten. -/
theorem damage_history_exceeds_ten :
    ¬ (end_frames true (egl_output.fresh 0) eleven_good_frames).damageHistory.length ≤ 10 := by
  decide

/-- C5 (amended): the damage history is capped at 11 entries. Starting with at most 11 entries,
in particular with none, any sequence of `endRenderingFrameForScreen` calls leaves at most 11;
one call either keeps the history as it is or puts the new entry in front of the old ones,
without the oldest of them when more than 10 were on record. -/
theorem damage_history_capped_at_eleven (supportsBufferAge : Bool) (out : egl_output)
    (frames : List frame) (h : out.damageHistory.length ≤ 11) :
    (end_frames supportsBufferAge out frames).damageHistory.length ≤ 11 ∧
      ∀ (f : frame) (o : egl_output),
        (endRenderingFrameForScreen supportsBufferAge f.env f.geometry o f.renderedRegion
            f.damagedRegion).damageHistory = o.damageHistory ∨
          (endRenderingFrameForScreen supportsBufferAge f.env f.geometry o f.renderedRegion
            f.damagedRegion).damageHistory
            = (f.damagedRegion ∩ f.geometry.toRegion) ::
                (if o.damageHistory.length > 10 then o.damageHistory.dropLast
                  else o.damageHistory) := by
  refine ⟨?_, fun f o => end_frame_history supportsBufferAge f.env f.geometry o _ _⟩
  induction frames generalizing out with
  | nil => exact h
  | cons f rest ih =>
    exact ih _ (end_frame_length_le supportsBufferAge f.env f.geometry out _ _ h)

theorem damage_history_capped_at_eleven_witness :
    (egl_output.fresh 0).damageHistory.length ≤ 11 ∧
      (end_frames true (egl_output.fresh 0) eleven_good_frames).damageHistory.length ≤ 11 :=
  ⟨by decide,
    (damage_history_capped_at_eleven true (egl_output.fresh 0) eleven_good_frames
      (by decide)).1⟩

/-- C6: after a present that succeeded with buffer age supported, entry 0 of the damage history
is the damaged region cut to the output geometry, every entry behind it is the old entry one
index lower, and of the old entries at most the last one is gone. -/
theorem record_pushes_to_front (env : wlr_env) (geometry : QRect) (out : egl_output)
    (renderedRegion damagedRegion : QRegion) (hne : damagedRegion ∩ geometry.toRegion ≠ ∅)
    (ht : env.test_ok = true) (hc : env.commit_ok = true) :
    (endRenderingFrameForScreen true env geometry out renderedRegion
        damagedRegion).damageHistory[0]? = some (damagedRegion ∩ geometry.toRegion) ∧
      (∀ i : Nat,
        i + 1 < (endRenderingFrameForScreen true env geometry out renderedRegion
          damagedRegion).damageHistory.length →
        (endRenderingFrameForScreen true env geometry out renderedRegion
          damagedRegion).damageHistory[i + 1]? = out.damageHistory[i]?) ∧
      out.damageHistory.length ≤
        (endRenderingFrameForScreen true env geometry out renderedRegion
          damagedRegion).damageHistory.length ∧
      (endRenderingFrameForScreen true env geometry out renderedRegion
          damagedRegion).damageHistory.length ≤ out.damageHistory.length + 1 := by
  rw [end_frame_presented env geometry out renderedRegion damagedRegion hne ht hc]
  refine ⟨List.getElem?_cons_zero, ?_, ?_, ?_⟩
  · intro i hi
    rw [List.getElem?_cons_succ]
    split_ifs at hi ⊢ with hlen
    · rw [List.getElem?_dropLast, if_pos]
      simpa [List.length_dropLast] using hi
    · rfl
  · split_ifs with hlen
    · simp only [List.length_cons, List.length_dropLast]; omega
    · simp only [List.length_cons]; omega
  · split_ifs with hlen
    · simp only [List.length_cons, List.length_dropLast]; omega
    · simp only [List.length_cons]; omega

theorem record_pushes_to_front_witness :
    (endRenderingFrameForScreen true env_ok small_geometry (aged_output 2) {(0, 0)}
        {(0, 0), (5, 5)}).damageHistory[0]?
        = some (({(0, 0), (5, 5)} : QRegion) ∩ small_geometry.toRegion) ∧
      (∀ i : Nat,
        i + 1 < (endRenderingFrameForScreen true env_ok small_geometry (aged_output 2) {(0, 0)}
          {(0, 0), (5, 5)}).damageHistory.length →
        (endRenderingFrameForScreen true env_ok small_geometry (aged_output 2) {(0, 0)}
          {(0, 0), (5, 5)}).damageHistory[i + 1]? = (aged_output 2).damageHistory[i]?) ∧
      (aged_output 2).damageHistory.length ≤
        (endRenderingFrameForScreen true env_ok small_geometry (aged_output 2) {(0, 0)}
          {(0, 0), (5, 5)}).damageHistory.length ∧
      (endRenderingFrameForScreen true env_ok small_geometry (aged_output 2) {(0, 0)}
          {(0, 0), (5, 5)}).damageHistory.length ≤ (aged_output 2).damageHistory.length + 1 :=
  record_pushes_to_front env_ok small_geometry (aged_output 2) {(0, 0)} {(0, 0), (5, 5)}
    (by decide) rfl rfl

/-- C7: in a frame that reaches `present()`: when the present fails (the atomic test or the
commit fails) the damage history stays as it was and `swap_pending` is false afterwards; when
it succeeds with buffer age supported the history afterwards begins with the new entry, the
damaged region cut to the output geometry, followed by the old entries that are kept. The
result of `present` depends on the answers of wlroots only, not on the output state. -/
theorem history_updated_only_on_success (supportsBufferAge : Bool) (env : wlr_env)
    (geometry : QRect) (out : egl_output) (renderedRegion damagedRegion : QRegion)
    (hne : damagedRegion ∩ geometry.toRegion ≠ ∅) :
    ((present env out).1 = false →
        (endRenderingFrameForScreen supportsBufferAge env geometry out renderedRegion
          damagedRegion).damageHistory = out.damageHistory ∧
        (endRenderingFrameForScreen supportsBufferAge env geometry out renderedRegion
          damagedRegion).swap_pending = false) ∧
      ((present env out).1 = true → supportsBufferAge = true →
        (endRenderingFrameForScreen supportsBufferAge env geometry out renderedRegion
          damagedRegion).damageHistory
          = (damagedRegion ∩ geometry.toRegion) ::
              (if out.damageHistory.length > 10 then out.damageHistory.dropLast
                else out.damageHistory)) := by
  constructor
  · intro hfail
    rw [present_result] at hfail
    have hf : env.test_ok = false ∨ env.commit_ok = false := by
      cases h1 : env.test_ok <;> cases h2 : env.commit_ok <;> simp_all
    have := end_frame_failed supportsBufferAge env geometry out renderedRegion damagedRegion
      hne hf
    exact ⟨this.1, this.2.2⟩
  · intro hok hs
    rw [present_result] at hok
    have hboth : env.test_ok = true ∧ env.commit_ok = true := by
      cases h1 : env.test_ok <;> cases h2 : env.commit_ok <;> simp_all
    subst hs
    exact end_frame_presented env geometry out renderedRegion damagedRegion hne hboth.1 hboth.2

theorem history_updated_only_on_success_witness :
    ((present env_commit_fails (aged_output 2)).1 = false →
        (endRenderingFrameForScreen true env_commit_fails small_geometry (aged_output 2)
          {(0, 0)} {(0, 0)}).damageHistory = (aged_output 2).damageHistory ∧
        (endRenderingFrameForScreen true env_commit_fails small_geometry (aged_output 2)
          {(0, 0)} {(0, 0)}).swap_pending = false) ∧
      ((present env_commit_fails (aged_output 2)).1 = true → true = true →
        (endRenderingFrameForScreen true env_commit_fails small_geometry (aged_output 2)
          {(0, 0)} {(0, 0)}).damageHistory
          = (({(0, 0)} : QRegion) ∩ small_geometry.toRegion) ::
              (if (aged_output 2).damageHistory.length > 10
                then (aged_output 2).damageHistory.dropLast
                else (aged_output 2).damageHistory)) :=
  history_updated_only_on_success true env_commit_fails small_geometry (aged_output 2)
    {(0, 0)} {(0, 0)} (by decide)

/-- C8 (as stated, refuted): a present that fails its atomic test on an output with buffer age
2 leaves the buffer age at 2, and the render region computed next, directly or after wlroots
reports age 2 for the next buffer, is not the output geometry. -/
theorem failed_present_keeps_buffer_age :
    (endRenderingFrameForScreen true env_test_fails small_geometry (aged_output 2) {(0, 0)}
        {(0, 0)}).bufferAge = 2 ∧
      get_output_render_region true small_geometry
        (endRenderingFrameForScreen true env_test_fails small_geometry (aged_output 2) {(0, 0)}
          {(0, 0)}) ≠ small_geometry.toRegion ∧
      get_output_render_region true small_geometry
        (set_render_target_to_output env_test_fails
          (endRenderingFrameForScreen true env_test_fails small_geometry (aged_output 2)
            {(0, 0)} {(0, 0)})) ≠ small_geometry.toRegion := by
  decide

/-- C8 (amended): a failed present (atomic test or commit failure) changes neither the buffer
age nor the damage history of the output. The age used by the next render-region computation
is the one that `wlr_output_attach_render` stores at the next `set_render_target_to_output`:
the region is computed as for the old history with that age, and it is the full output geometry
when that age is 0. -/
theorem failed_present_leaves_age_to_wlroots (supportsBufferAge : Bool) (env next : wlr_env)
    (geometry : QRect) (out : egl_output) (renderedRegion damagedRegion : QRegion)
    (hne : damagedRegion ∩ geometry.toRegion ≠ ∅)
    (hf : env.test_ok = false ∨ env.commit_ok = false) :
    (endRenderingFrameForScreen supportsBufferAge env geometry out renderedRegion
        damagedRegion).bufferAge = out.bufferAge ∧
      (endRenderingFrameForScreen supportsBufferAge env geometry out renderedRegion
        damagedRegion).damageHistory = out.damageHistory ∧
      get_output_render_region supportsBufferAge geometry
          (set_render_target_to_output next
            (endRenderingFrameForScreen supportsBufferAge env geometry out renderedRegion
              damagedRegion))
        = get_output_render_region supportsBufferAge geometry
            { out with bufferAge := next.buffer_age } ∧
      (next.buffer_age = 0 →
        get_output_render_region supportsBufferAge geometry
            (set_render_target_to_output next
              (endRenderingFrameForScreen supportsBufferAge env geometry out renderedRegion
                damagedRegion))
          = geometry.toRegion) := by
  have hfail := end_frame_failed supportsBufferAge env geometry out renderedRegion
    damagedRegion hne hf
  have hreg : get_output_render_region supportsBufferAge geometry
      (set_render_target_to_output next
        (endRenderingFrameForScreen supportsBufferAge env geometry out renderedRegion
          damagedRegion))
      = get_output_render_region supportsBufferAge geometry
          { out with bufferAge := next.buffer_age } := by
    simp only [get_output_render_region, set_render_target_to_output, egl_output.call, hfail.1]
  refine ⟨hfail.2.1, hfail.1, hreg, fun h0 => ?_⟩
  rw [hreg]
  simp [get_output_render_region, h0]

theorem failed_present_leaves_age_to_wlroots_witness :
    (endRenderingFrameForScreen true env_test_fails small_geometry (aged_output 2) {(0, 0)}
        {(0, 0)}).bufferAge = (aged_output 2).bufferAge ∧
      (endRenderingFrameForScreen true env_test_fails small_geometry (aged_output 2) {(0, 0)}
        {(0, 0)}).damageHistory = (aged_output 2).damageHistory ∧
      get_output_render_region true small_geometry
          (set_render_target_to_output env_ok
            (endRenderingFrameForScreen true env_test_fails small_geometry (aged_output 2)
              {(0, 0)} {(0, 0)}))
        = get_output_render_region true small_geometry
            { aged_output 2 with bufferAge := env_ok.buffer_age } ∧
      (env_ok.buffer_age = 0 →
        get_output_render_region true small_geometry
            (set_render_target_to_output env_ok
              (endRenderingFrameForScreen true env_test_fails small_geometry (aged_output 2)
                {(0, 0)} {(0, 0)}))
          = small_geometry.toRegion) :=
  failed_present_leaves_age_to_wlroots true env_test_fails env_ok small_geometry (aged_output 2)
    {(0, 0)} {(0, 0)} (by decide) (Or.inl rfl)

/-- C9: `egl_output::present` returns true exactly when both `wlr_output_test` and
`wlr_output_commit` succeed; it always issues the test, and it issues the commit exactly when
the test succeeded, so never after a failed test. -/
theorem present_true_iff_test_and_commit (env : wlr_env) (out : egl_output) :
    ((present env out).1 = true ↔ env.test_ok = true ∧ env.commit_ok = true) ∧
      ∃ issued, (present env out).2.calls = out.calls ++ issued ∧
        wlr_call.output_test ∈ issued ∧
        (wlr_call.output_commit ∈ issued ↔ env.test_ok = true) := by
  constructor
  · rw [present_result]; simp
  · obtain ⟨age, tq, en, t, c, ns⟩ := env
    cases en <;> cases t <;> cases c <;> cases ns <;>
      simp [present, reset, egl_output.call]

end render.backend.wlroots

namespace render.wayland

/-- C10 (as stated, refuted): with the lock free, a repaint of the pixel `(0, 0)` is handed to
the scheduler of output 1, whose geometry does not contain that pixel. -/
theorem add_repaint_reaches_disjoint_output :
    sched_call.add_repaint 1 {(0, 0)} ∈
        (addRepaint two_outputs (compositor_with_lock 0) {(0, 0)}).calls ∧
      ({(0, 0)} : QRegion) ∩ (two_outputs.geometry 1).toRegion = ∅ := by
  decide

/-- C10 (amended): when the compositor is not locked, `addRepaint(region)` calls
`add_repaint(region)` on every scheduler of the output map, once each and in map order,
whether or not the geometry of its output meets the region; so every region, one covering
all outputs included, reaches every scheduler. -/
theorem add_repaint_fans_out_to_all (w : world) (c : compositor) (region : QRegion)
    (h : c.locked = 0) :
    (addRepaint w c region).calls
        = c.calls ++ c.outputs.map (fun kv => sched_call.add_repaint kv.1 region) ∧
      (addRepaint w c region).outputs
        = c.outputs.map (fun kv => (kv.1, w.add_repaint region kv.2)) ∧
      (addRepaint w c region).locked = c.locked ∧
      ∀ kv ∈ c.outputs, sched_call.add_repaint kv.1 region ∈ (addRepaint w c region).calls := by
  have hcalls : (addRepaint w c region).calls
      = c.calls ++ c.outputs.map (fun kv => sched_call.add_repaint kv.1 region) := by
    simp [addRepaint, h, addRepaint_loop_eq]
  refine ⟨hcalls, ?_, ?_, fun kv hkv => ?_⟩
  · simp [addRepaint, h, addRepaint_loop_eq]
  · simp [addRepaint, h]
  · rw [hcalls]
    exact List.mem_append_right _ (List.mem_map.mpr ⟨kv, hkv, rfl⟩)

theorem add_repaint_fans_out_to_all_witness :
    (addRepaint two_outputs (compositor_with_lock 0) two_outputs.space).calls
        = (compositor_with_lock 0).calls ++
          (compositor_with_lock 0).outputs.map
            (fun kv => sched_call.add_repaint kv.1 two_outputs.space) ∧
      (addRepaint two_outputs (compositor_with_lock 0) two_outputs.space).outputs
        = (compositor_with_lock 0).outputs.map
            (fun kv => (kv.1, two_outputs.add_repaint two_outputs.space kv.2)) ∧
      (addRepaint two_outputs (compositor_with_lock 0) two_outputs.space).locked
        = (compositor_with_lock 0).locked ∧
      ∀ kv ∈ (compositor_with_lock 0).outputs,
        sched_call.add_repaint kv.1 two_outputs.space ∈
          (addRepaint two_outputs (compositor_with_lock 0) two_outputs.space).calls :=
  add_repaint_fans_out_to_all two_outputs (compositor_with_lock 0) two_outputs.space rfl

/-- C11: when the compositor is not locked and `max_coverage_output(window)` is an output `o`
of the output map, `schedule_frame_callback(window)` issues exactly one call, which is
`request_frame(window)` on the scheduler of `o`; the keys of the map are the same afterwards,
the scheduler of `o` is the one the call acted on, and every other scheduler is untouched. -/
theorem frame_callback_goes_to_max_coverage_output (w : world) (c : compositor)
    (window : window_id) (o : output_id) (s : output) (hl : c.locked = 0)
    (hm : w.max_coverage_output window = some o) (hr : find_output o c.outputs = some s) :
    ∃ c2, schedule_frame_callback w c window = some c2 ∧
      c2.calls = c.calls ++ [sched_call.request_frame o window] ∧
      c2.outputs.map Prod.fst = c.outputs.map Prod.fst ∧
      find_output o c2.outputs = some (w.request_frame window s) ∧
      (∀ k, k ≠ o → find_output k c2.outputs = find_output k c.outputs) ∧
      c2.locked = c.locked := by
  refine ⟨{ c with
      outputs := set_output o (w.request_frame window s) c.outputs,
      calls := c.calls ++ [sched_call.request_frame o window] }, ?_, rfl, ?_, ?_, ?_, rfl⟩
  · simp [schedule_frame_callback, hl, hm, hr]
  · exact set_output_keys o _ c.outputs
  · exact find_set_output_same o _ s c.outputs hr
  · intro k hk
    exact find_set_output_other o k _ c.outputs hk

theorem frame_callback_goes_to_max_coverage_output_witness :
    ∃ c2, schedule_frame_callback two_outputs (compositor_with_lock 0) 7 = some c2 ∧
      c2.calls = (compositor_with_lock 0).calls ++ [sched_call.request_frame 0 7] ∧
      c2.outputs.map Prod.fst = (compositor_with_lock 0).outputs.map Prod.fst ∧
      find_output 0 c2.outputs = some (two_outputs.request_frame 7 idle_output) ∧
      (∀ k, k ≠ 0 → find_output k c2.outputs = find_output k (compositor_with_lock 0).outputs) ∧
      c2.locked = (compositor_with_lock 0).locked :=
  frame_callback_goes_to_max_coverage_output two_outputs (compositor_with_lock 0) 7 0
    idle_output rfl rfl rfl

/-- C12: when `max_coverage_output(window)` is null, `schedule_frame_callback(window)` returns
without an error and leaves the compositor as it was: no call is issued and no scheduler
changes. -/
theorem frame_callback_without_output_is_noop (w : world) (c : compositor) (window : window_id)
    (h : w.max_coverage_output window = none) :
    schedule_frame_callback w c window = some c := by
  by_cases hl : c.locked = 0
  · simp [schedule_frame_callback, hl, h]
  · simp [schedule_frame_callback, hl]

theorem frame_callback_without_output_is_noop_witness :
    schedule_frame_callback no_coverage (compositor_with_lock 0) 7
      = some (compositor_with_lock 0) :=
  frame_callback_without_output_is_noop no_coverage (compositor_with_lock 0) 7 rfl

/-- C13: `check_idle` calls `scene()->idle()` exactly when every scheduler of the output map
has `idle == true`; when one of them is not idle the compositor is left as it was, and in no
case does a scheduler change. -/
theorem check_idle_notifies_iff_all_idle (c : compositor) :
    (sched_call.scene_idle ∈ (check_idle c).calls.drop c.calls.length ↔
        ∀ kv ∈ c.outputs, kv.2.idle = true) ∧
      ((∀ kv ∈ c.outputs, kv.2.idle = true) →
        check_idle c = { c with calls := c.calls ++ [sched_call.scene_idle] }) ∧
      ((∃ kv ∈ c.outputs, kv.2.idle = false) → check_idle c = c) ∧
      (check_idle c).outputs = c.outputs := by
  by_cases hall : ∀ kv ∈ c.outputs, kv.2.idle = true
  · have hloop := (check_idle_loop_iff c.outputs).mpr hall
    have hval : check_idle c = { c with calls := c.calls ++ [sched_call.scene_idle] } := by
      simp [check_idle, hloop]
    refine ⟨?_, fun _ => hval, ?_, ?_⟩
    · rw [hval]
      simpa using hall
    · rintro ⟨kv, hkv, hidle⟩
      rw [hall kv hkv] at hidle
      cases hidle
    · rw [hval]
  · have hloop : check_idle_loop c.outputs = false := by
      cases hb : check_idle_loop c.outputs
      · rfl
      · exact absurd ((check_idle_loop_iff c.outputs).mp hb) hall
    have hval : check_idle c = c := by
      simp [check_idle, hloop]
    refine ⟨?_, fun h => absurd h hall, fun _ => hval, ?_⟩
    · rw [hval]
      simp only [List.drop_length, List.not_mem_nil, false_iff]
      exact hall
    · rw [hval]

/-- C14: on a map with distinct keys, the `output_removed(o)` handler erases the entry of `o`
and nothing else: afterwards `o` has no scheduler, every other key has the scheduler it had,
the remaining entries keep their order, and lock and call log are untouched; for an `o` that
is not in the map the compositor stays as it was. -/
theorem output_removed_erases_exactly_that_output (c : compositor)
    (workspace : Option (List window)) (o : output_id)
    (hmap : (c.outputs.map Prod.fst).Nodup) :
    find_output o (output_removed c workspace o).1.outputs = none ∧
      (∀ k, k ≠ o →
        find_output k (output_removed c workspace o).1.outputs = find_output k c.outputs) ∧
      (output_removed c workspace o).1.outputs
        = c.outputs.filter (fun kv => decide (kv.1 ≠ o)) ∧
      (output_removed c workspace o).1.locked = c.locked ∧
      (output_removed c workspace o).1.calls = c.calls ∧
      (find_output o c.outputs = none → (output_removed c workspace o).1 = c) := by
  rw [output_removed_fst]
  refine ⟨?_, fun k hk => find_erase_output_other o k c.outputs hk,
    erase_output_eq_filter o c.outputs hmap, rfl, rfl, fun hnone => ?_⟩
  · rw [find_output_eq_none_iff, (keys_erase_output o c.outputs hmap).2 o]
    exact fun h => h.1 rfl
  · rw [find_output_eq_none_iff] at hnone
    rw [erase_output_of_not_mem o c.outputs hnone]

theorem output_removed_erases_exactly_that_output_witness :
    find_output 1 (output_removed (compositor_with_lock 0) none 1).1.outputs = none ∧
      (∀ k, k ≠ 1 →
        find_output k (output_removed (compositor_with_lock 0) none 1).1.outputs
          = find_output k (compositor_with_lock 0).outputs) ∧
      (output_removed (compositor_with_lock 0) none 1).1.outputs
        = (compositor_with_lock 0).outputs.filter (fun kv => decide (kv.1 ≠ 1)) ∧
      (output_removed (compositor_with_lock 0) none 1).1.locked
        = (compositor_with_lock 0).locked ∧
      (output_removed (compositor_with_lock 0) none 1).1.calls
        = (compositor_with_lock 0).calls ∧
      (find_output 1 (compositor_with_lock 0).outputs = none →
        (output_removed (compositor_with_lock 0) none 1).1 = compositor_with_lock 0) :=
  output_removed_erases_exactly_that_output (compositor_with_lock 0) none 1 (by decide)

/-- C15: when `output_removed(o)` is handled while a workspace exists, afterwards no window of
the workspace has `o` in its `repaint_outputs`; the windows are the same ones in the same
order, and each list holds its other elements as before, in their original order. -/
theorem output_removed_scrubs_repaint_outputs (c : compositor) (windows : List window)
    (o : output_id) :
    ∃ windows2, (output_removed c (some windows) o).2 = some windows2 ∧
      (∀ win ∈ windows2, o ∉ win.repaint_outputs) ∧
      windows2.map (fun win => win.id) = windows.map (fun win => win.id) ∧
      windows2.map (fun win => win.repaint_outputs)
        = windows.map (fun win => win.repaint_outputs.filter (fun x => decide (x ≠ o))) := by
  refine ⟨_, rfl, ?_, ?_, ?_⟩
  · intro win hwin
    rw [List.mem_map] at hwin
    obtain ⟨old, _, rfl⟩ := hwin
    simp [remove_all_eq_filter]
  · simp [List.map_map, Function.comp_def]
  · simp [List.map_map, Function.comp_def, remove_all_eq_filter]

/-- C16: after the constructor has run over the outputs of the platform and after any sequence
of `output_added` and `output_removed` signals, the keys of the output map are in strict
order, so no output has two schedulers, and an output has a scheduler exactly when it is
present on the platform. -/
theorem one_scheduler_per_present_output (make_output : output_id → output)
    (get_outputs : List output_id) (workspace : Option (List window))
    (events : List hotplug) :
    (((events.foldl (handle_hotplug make_output)
          (new_compositor make_output get_outputs, workspace)).1.outputs.map Prod.fst).Sorted
        (· < ·)) ∧
      (((events.foldl (handle_hotplug make_output)
          (new_compositor make_output get_outputs, workspace)).1.outputs.map Prod.fst).Nodup) ∧
      ∀ k, (find_output k (events.foldl (handle_hotplug make_output)
          (new_compositor make_output get_outputs, workspace)).1.outputs).isSome = true ↔
        k ∈ present_outputs get_outputs.toFinset events := by
  have hnew := new_compositor_keys make_output get_outputs
    { locked := 0, outputs := [], calls := [] } (by simp)
  have hinv := hotplug_invariant make_output events
    (new_compositor make_output get_outputs, workspace) get_outputs.toFinset hnew.1
    (fun k => by
      have := hnew.2 k
      simpa [new_compositor] using this)
  refine ⟨hinv.1, hinv.1.nodup, fun k => ?_⟩
  rw [find_output_isSome_iff]
  exact hinv.2 k

/-- C17: the lock is a reentrant counter. `is_locked()` is true exactly when the counter is
above 0; and starting unlocked, along any sequence of `lock()` and `unlock()` calls in which
no leading part has more unlocks than locks, after every leading part no `unlock()` has failed
its assertion, the counter is the number of locks minus the number of unlocks so far, and
`is_locked()` is true exactly while unlocks are fewer than locks. -/
theorem lock_is_reentrant_counter (w : world) (c : compositor) (calls : List lock_call)
    (h0 : c.locked = 0) (hb : balanced calls) :
    (∀ d : compositor, is_locked d = true ↔ 0 < d.locked) ∧
      ∀ n, ∃ c2, run_lock_calls w c (calls.take n) = some c2 ∧
        c2.locked = ((calls.take n).count lock_call.lock : Int)
          - ((calls.take n).count lock_call.unlock : Int) ∧
        (is_locked c2 = true ↔
          (calls.take n).count lock_call.unlock < (calls.take n).count lock_call.lock) := by
  refine ⟨fun d => by simp [is_locked], fun n => ?_⟩
  have hpre : ∀ m, m ≤ (calls.take n).length →
      (((calls.take n).take m).count lock_call.unlock : Int)
        ≤ c.locked + (((calls.take n).take m).count lock_call.lock : Int) := by
    intro m hm
    rw [List.take_take, h0]
    have hle : min m n ≤ calls.length := by
      have : (calls.take n).length ≤ calls.length := by simp
      omega
    have := hb (min m n) hle
    omega
  obtain ⟨c2, hrun, hval⟩ := run_lock_calls_counter w (calls.take n) c (by omega) hpre
  refine ⟨c2, hrun, by rw [hval, h0]; omega, ?_⟩
  simp only [is_locked, decide_eq_true_eq, hval, h0]
  omega

theorem lock_is_reentrant_counter_witness :
    (∀ d : compositor, is_locked d = true ↔ 0 < d.locked) ∧
      ∀ n, ∃ c2,
        run_lock_calls two_outputs (compositor_with_lock 0)
          ([lock_call.lock, lock_call.lock, lock_call.unlock, lock_call.unlock].take n)
          = some c2 ∧
        c2.locked
          = ((([lock_call.lock, lock_call.lock, lock_call.unlock, lock_call.unlock].take
                n).count lock_call.lock : Nat) : Int)
            - ((([lock_call.lock, lock_call.lock, lock_call.unlock, lock_call.unlock].take
                n).count lock_call.unlock : Nat) : Int) ∧
        (is_locked c2 = true ↔
          ([lock_call.lock, lock_call.lock, lock_call.unlock, lock_call.unlock].take n).count
              lock_call.unlock
            < ([lock_call.lock, lock_call.lock, lock_call.unlock, lock_call.unlock].take
              n).count lock_call.lock) :=
  lock_is_reentrant_counter two_outputs (compositor_with_lock 0)
    [lock_call.lock, lock_call.lock, lock_call.unlock, lock_call.unlock] rfl (by decide)

/-- C19: with the scheduler body `add_repaint` as the spec describes it, a second
`add_repaint_full()` before a render leaves every scheduler of the output map, with its
accumulated `repaints_region` and its timers, in the state that the first call left it in;
the lock counter is the same as well. -/
theorem add_repaint_full_idempotent (w : world) (c : compositor) :
    (addRepaintFull (spec_scheduler w) (addRepaintFull (spec_scheduler w) c)).outputs
        = (addRepaintFull (spec_scheduler w) c).outputs ∧
      (addRepaintFull (spec_scheduler w) (addRepaintFull (spec_scheduler w) c)).locked
        = (addRepaintFull (spec_scheduler w) c).locked := by
  refine ⟨?_, addRepaintFull_locked _ _⟩
  by_cases hl : c.locked = 0
  · simp [addRepaintFull, addRepaint, hl, addRepaint_loop_eq, spec_scheduler,
      spec_add_repaint_idem]
  · simp [addRepaintFull, addRepaint, hl]

/-- C20: with the scheduler as the spec describes it, the region handed to the render at a
deadline fire is the union of all regions requested by `add_repaint` since the fire before,
whatever the order of the calls was. -/
theorem add_repaints_coalesce (o : output) (regions : List QRegion) :
    (spec_deadline_fire (add_repaints regions (spec_deadline_fire o).2)).1 = united regions ∧
      ∀ reordered : List QRegion, reordered.Perm regions →
        (spec_deadline_fire (add_repaints reordered (spec_deadline_fire o).2)).1
          = (spec_deadline_fire (add_repaints regions (spec_deadline_fire o).2)).1 := by
  have hval : ∀ rs : List QRegion,
      (spec_deadline_fire (add_repaints rs (spec_deadline_fire o).2)).1 = united rs := by
    intro rs
    simp [spec_deadline_fire, add_repaints_region]
  refine ⟨hval regions, fun reordered hperm => ?_⟩
  rw [hval, hval, united_perm regions reordered hperm]

end render.wayland

namespace render.backend.wlroots

/-- C18 (as stated, refuted): with buffer age 1 the render region is the whole output, not the
empty region, when no damage is on record yet, and also when buffer age is not supported. -/
theorem render_region_for_age_one_not_empty :
    get_output_render_region true small_geometry { egl_output.fresh 0 with bufferAge := 1 }
        ≠ ∅ ∧
      get_output_render_region false small_geometry (aged_output 1) ≠ ∅ := by
  decide

/-- C18 (amended): with buffer age supported, a buffer age of 1 and at least one entry in the
damage history, `get_output_render_region` returns the empty region. -/
theorem render_region_empty_for_age_one (geometry : QRect) (out : egl_output)
    (h1 : out.bufferAge = 1) (hh : out.damageHistory ≠ []) :
    get_output_render_region true geometry out = ∅ := by
  have hlen : 0 < out.damageHistory.length := List.length_pos.mpr hh
  have hle : ¬ (1 : Int) > (out.damageHistory.length : Int) := by omega
  simp [get_output_render_region, h1, hle, accumulate_damage]

theorem render_region_empty_for_age_one_witness :
    get_output_render_region true small_geometry (aged_output 1) = ∅ :=
  render_region_empty_for_age_one small_geometry (aged_output 1) rfl (by decide)

end render.backend.wlroots

namespace render.backend.wlroots

/-- C21 (as stated, refuted): when the test passes and the commit fails, the calls issued by
`qpainter_output::present` are the test and the commit; there is no rollback among them. -/
theorem qpainter_no_rollback_after_failed_commit :
    (qpainter_output.present env_commit_fails painted_output).map (fun out => out.calls)
        = some [wlr_call.output_test, wlr_call.output_commit] ∧
      wlr_call.output_rollback ∉ [wlr_call.output_test, wlr_call.output_commit] := by
  decide

/-- C21 (amended): `qpainter_output::present`, called with a buffer, issues an output rollback
exactly when the atomic test fails; when the test passes the commit is issued, and also when
that commit fails no rollback is issued. -/
theorem qpainter_rollback_iff_test_fails (env : wlr_env) (out : qpainter_output)
    (buffer_bits : List Nat) (hb : out.buffer = some buffer_bits) :
    ∃ out2 issued, qpainter_output.present env out = some out2 ∧
      out2.calls = out.calls ++ issued ∧
      wlr_call.output_test ∈ issued ∧
      (wlr_call.output_rollback ∈ issued ↔ env.test_ok = false) ∧
      (wlr_call.output_commit ∈ issued ↔ env.test_ok = true) := by
  obtain ⟨age, tq, en, t, c, ns⟩ := env
  cases en <;> cases t <;> cases c <;>
    simp [qpainter_output.present, qpainter_output.call, hb]

theorem qpainter_rollback_iff_test_fails_witness :
    ∃ out2 issued, qpainter_output.present env_test_fails painted_output = some out2 ∧
      out2.calls = painted_output.calls ++ issued ∧
      wlr_call.output_test ∈ issued ∧
      (wlr_call.output_rollback ∈ issued ↔ env_test_fails.test_ok = false) ∧
      (wlr_call.output_commit ∈ issued ↔ env_test_fails.test_ok = true) :=
  qpainter_rollback_iff_test_fails env_test_fails painted_output [1, 2, 3, 4] rfl

/-- C22 (the code at the failing inputs): after `qpainter_output::present` has failed, at the
test or at the commit, `swap_pending` is true; on the EGL path the same failure ends with
`swap_pending` false. -/
theorem qpainter_failed_present_keeps_swap_pending :
    (qpainter_output.present env_test_fails painted_output).map (fun out => out.swap_pending)
        = some true ∧
      (qpainter_output.present env_commit_fails painted_output).map
          (fun out => out.swap_pending) = some true ∧
      (endRenderingFrameForScreen true env_test_fails small_geometry (aged_output 2) {(0, 0)}
        {(0, 0)}).swap_pending = false := by
  decide

/-- C25: when the damaged region does not meet the output geometry,
`endRenderingFrameForScreen` ends with an output rollback and does not present: no buffer is
attached, no test and no commit is issued, and damage history, `swap_pending` and buffer age
are what they were. -/
theorem undamaged_frame_is_rolled_back (supportsBufferAge : Bool) (env : wlr_env)
    (geometry : QRect) (out : egl_output) (renderedRegion damagedRegion : QRegion)
    (hempty : damagedRegion ∩ geometry.toRegion = ∅) :
    (endRenderingFrameForScreen supportsBufferAge env geometry out renderedRegion
        damagedRegion).damageHistory = out.damageHistory ∧
      (endRenderingFrameForScreen supportsBufferAge env geometry out renderedRegion
        damagedRegion).swap_pending = out.swap_pending ∧
      (endRenderingFrameForScreen supportsBufferAge env geometry out renderedRegion
        damagedRegion).bufferAge = out.bufferAge ∧
      ∃ issued,
        (endRenderingFrameForScreen supportsBufferAge env geometry out renderedRegion
          damagedRegion).calls = out.calls ++ issued ∧
        issued.getLast? = some wlr_call.output_rollback ∧
        wlr_call.output_attach_buffer ∉ issued ∧
        wlr_call.output_test ∉ issued ∧
        wlr_call.output_commit ∉ issued := by
  by_cases hr : renderedRegion ∩ geometry.toRegion = ∅ <;> cases htq : env.timer_query <;>
    simp [endRenderingFrameForScreen, egl_output.call, hempty, hr, htq]

theorem undamaged_frame_is_rolled_back_witness :
    (endRenderingFrameForScreen true env_ok small_geometry (aged_output 2) {(0, 0)}
        {(5, 5)}).damageHistory = (aged_output 2).damageHistory ∧
      (endRenderingFrameForScreen true env_ok small_geometry (aged_output 2) {(0, 0)}
        {(5, 5)}).swap_pending = (aged_output 2).swap_pending ∧
      (endRenderingFrameForScreen true env_ok small_geometry (aged_output 2) {(0, 0)}
        {(5, 5)}).bufferAge = (aged_output 2).bufferAge ∧
      ∃ issued,
        (endRenderingFrameForScreen true env_ok small_geometry (aged_output 2) {(0, 0)}
          {(5, 5)}).calls = (aged_output 2).calls ++ issued ∧
        issued.getLast? = some wlr_call.output_rollback ∧
        wlr_call.output_attach_buffer ∉ issued ∧
        wlr_call.output_test ∉ issued ∧
        wlr_call.output_commit ∉ issued :=
  undamaged_frame_is_rolled_back true env_ok small_geometry (aged_output 2) {(0, 0)} {(5, 5)}
    (by decide)

/-- C26: on an output whose geometry stays the same, starting from a history within the
geometry (the empty one included), after any sequence of `endRenderingFrameForScreen` calls
every entry of the damage history lies within the output geometry, and so does the region that
`get_output_render_region` returns for any buffer age. -/
theorem damage_history_within_geometry (supportsBufferAge : Bool) (geometry : QRect)
    (out : egl_output) (frames : List frame) (age : Int)
    (hinit : ∀ r ∈ out.damageHistory, r ⊆ geometry.toRegion)
    (hgeo : ∀ f ∈ frames, f.geometry = geometry) :
    (∀ r ∈ (end_frames supportsBufferAge out frames).damageHistory, r ⊆ geometry.toRegion) ∧
      get_output_render_region supportsBufferAge geometry
          { end_frames supportsBufferAge out frames with bufferAge := age }
        ⊆ geometry.toRegion := by
  have hall : ∀ r ∈ (end_frames supportsBufferAge out frames).damageHistory,
      r ⊆ geometry.toRegion := by
    induction frames generalizing out with
    | nil => exact hinit
    | cons f rest ih =>
      have hf : f.geometry = geometry := hgeo f (List.mem_cons_self _ _)
      have hrest : ∀ g ∈ rest, g.geometry = geometry :=
        fun g hg => hgeo g (List.mem_cons_of_mem _ hg)
      have hstep := end_frame_within supportsBufferAge f.env geometry out f.renderedRegion
        f.damagedRegion hinit
      have hfold : end_frames supportsBufferAge out (f :: rest)
          = end_frames supportsBufferAge
              (endRenderingFrameForScreen supportsBufferAge f.env geometry out
                f.renderedRegion f.damagedRegion) rest := by
        simp [end_frames, hf]
      rw [hfold]
      exact ih _ hstep hrest
  refine ⟨hall, ?_⟩
  unfold get_output_render_region
  split_ifs
  · exact Finset.Subset.refl _
  · exact Finset.Subset.refl _
  · exact Finset.Subset.refl _
  · exact accumulate_damage_subset _ _ _ hall

theorem damage_history_within_geometry_witness :
    (∀ r ∈ (end_frames true (egl_output.fresh 0) eleven_good_frames).damageHistory,
        r ⊆ small_geometry.toRegion) ∧
      get_output_render_region true small_geometry
          { end_frames true (egl_output.fresh 0) eleven_good_frames with bufferAge := 3 }
        ⊆ small_geometry.toRegion :=
  damage_history_within_geometry true small_geometry (egl_output.fresh 0) eleven_good_frames 3
    (by decide) (by decide)

/-- C27: for a fixed damage history and buffer ages `a ≤ b` with `1 ≤ a` and
`b ≤ damageHistory.size()`, the render region for age `a` lies within the one for age `b`. -/
theorem render_region_monotone_in_age (supportsBufferAge : Bool) (geometry : QRect)
    (out : egl_output) (a b : Int) (ha : 1 ≤ a) (hab : a ≤ b)
    (hb : b ≤ (out.damageHistory.length : Int)) :
    get_output_render_region supportsBufferAge geometry { out with bufferAge := a }
      ⊆ get_output_render_region supportsBufferAge geometry { out with bufferAge := b } := by
  cases supportsBufferAge
  · simp [get_output_render_region]
  · have ha0 : a ≠ 0 := by omega
    have hb0 : b ≠ 0 := by omega
    have hale : ¬ a > (out.damageHistory.length : Int) := by omega
    have hble : ¬ b > (out.damageHistory.length : Int) := by omega
    simp only [get_output_render_region, Bool.not_true, Bool.false_eq_true, if_false, ha0, hb0,
      hale, hble]
    exact accumulate_damage_mono _ _ _ (by omega)

theorem render_region_monotone_in_age_witness :
    get_output_render_region true small_geometry { aged_output 0 with bufferAge := 1 }
      ⊆ get_output_render_region true small_geometry { aged_output 0 with bufferAge := 2 } :=
  render_region_monotone_in_age true small_geometry (aged_output 0) 1 2 (by decide)
    (by decide) (by decide)

end render.backend.wlroots

namespace render.wayland

/-- C23 (as stated, refuted): after the `Workspace::destroyed` handler the frame timer of
output 1, which was running, is still running. -/
theorem frame_timer_survives_teardown :
    (workspace_destroyed compositor_with_frame_timer).outputs.map (fun kv => kv.2.frame_timer)
      = [false, true] := by
  decide

/-- C23 (amended): on compositor teardown the delay timer of every scheduler of the output map
is stopped; the frame timers are left as they are, and so are the keys of the map, the lock
counter and the call log. -/
theorem teardown_stops_delay_timers (c : compositor) :
    (∀ kv ∈ (workspace_destroyed c).outputs, kv.2.delay_timer = false) ∧
      (workspace_destroyed c).outputs.map (fun kv => kv.2.frame_timer)
        = c.outputs.map (fun kv => kv.2.frame_timer) ∧
      (workspace_destroyed c).outputs.map Prod.fst = c.outputs.map Prod.fst ∧
      (workspace_destroyed c).locked = c.locked ∧
      (workspace_destroyed c).calls = c.calls := by
  refine ⟨?_, ?_, ?_, rfl, rfl⟩
  · intro kv hkv
    simp only [workspace_destroyed, List.mem_map] at hkv
    obtain ⟨old, _, rfl⟩ := hkv
    rfl
  · simp [workspace_destroyed, List.map_map, Function.comp_def]
  · simp [workspace_destroyed, List.map_map, Function.comp_def]

/-- C24 (as stated, refuted): with the lock counter at 2, `performCompositing` calls `run()` on
output 0 and on output 1. -/
theorem locked_compositor_still_runs_outputs :
    (performCompositing two_outputs.set_delay_timer (compositor_with_lock 2)).1.calls
      = [sched_call.run 0, sched_call.run 1] := by
  decide

/-- C24 (amended): `performCompositing` calls `run()` on every scheduler of the output map,
once each and in map order, whatever the lock counter is, so also while the compositor is
locked; it leaves the lock counter as it is and returns an empty list of windows. -/
theorem perform_compositing_runs_every_output (run : output → output) (c : compositor) :
    (performCompositing run c).1.calls
        = c.calls ++ c.outputs.map (fun kv => sched_call.run kv.1) ∧
      (performCompositing run c).1.outputs = c.outputs.map (fun kv => (kv.1, run kv.2)) ∧
      (performCompositing run c).1.locked = c.locked ∧
      (performCompositing run c).2 = [] ∧
      ∀ kv ∈ c.outputs, sched_call.run kv.1 ∈ (performCompositing run c).1.calls := by
  have hcalls : (performCompositing run c).1.calls
      = c.calls ++ c.outputs.map (fun kv => sched_call.run kv.1) := by
    simp [performCompositing, performCompositing_loop_eq]
  refine ⟨hcalls, ?_, rfl, rfl, fun kv hkv => ?_⟩
  · simp [performCompositing, performCompositing_loop_eq]
  · rw [hcalls]
    exact List.mem_append_right _ (List.mem_map.mpr ⟨kv, hkv, rfl⟩)

end render.wayland

namespace ThumbnailAsideEffect

/-- C28: after any sequence of `toggleCurrentThumbnail` and `slotWindowClosed` calls on a new
effect, no `arrange()` has reached outside its vector, and the index fields of the `n` tracked
windows are the numbers `0 .. n-1`, each used once: they are distinct, each lies in that range,
and each number of the range occurs; so every access `pos[d.index]` of `arrange()` is within
the vector of `n` elements. -/
theorem thumbnail_indices_are_zero_to_n (height : EffectWindow → Int) (events : List event) :
    ∃ windows, run_events height [] events = some windows ∧
      (windows.map (fun e => e.2.index)).Nodup ∧
      (∀ e ∈ windows, 0 ≤ e.2.index ∧ e.2.index < (windows.length : Int)) ∧
      (∀ i : Nat, i < windows.length → (i : Int) ∈ windows.map (fun e => e.2.index)) ∧
      ∃ pos, arrange height windows = some pos := by
  have hempty : numbered [] := ⟨List.nodup_nil, List.nodup_nil, fun e he => by simp at he⟩
  obtain ⟨windows, hrun, hn⟩ := run_events_numbered height events [] hempty
  exact ⟨windows, hrun, hn.2.1, hn.2.2, numbered_covers windows hn,
    arrange_ok height windows hn.2.2⟩

end ThumbnailAsideEffect

namespace win.x11

/-- C29: `update_space_areas` only shrinks the per-screen areas and never removes one: for
every desktop and every screen the screen area afterwards lies within the one before and is
not empty when that one was not; for a window without a strut all areas are as before. -/
theorem update_space_areas_shrinks_screen_areas (win : strut_window) (screens : screens_info)
    (desktop_area : QRect) (screens_geos : Nat → QRect) (areas : space_areas) (d s : Nat) :
    ((update_space_areas win screens desktop_area screens_geos areas).screen d s).toRegion
        ⊆ (areas.screen d s).toRegion ∧
      ((areas.screen d s).toRegion ≠ ∅ →
        ((update_space_areas win screens desktop_area screens_geos areas).screen d s).toRegion
          ≠ ∅) ∧
      (win.hasStrut = false →
        update_space_areas win screens desktop_area screens_geos areas = areas) := by
  have hmain : ((update_space_areas win screens desktop_area screens_geos areas).screen d
      s).toRegion ⊆ (areas.screen d s).toRegion ∧
      ((areas.screen d s).toRegion ≠ ∅ →
        ((update_space_areas win screens desktop_area screens_geos areas).screen d s).toRegion
          ≠ ∅) := by
    unfold update_space_areas
    split_ifs
    · exact ⟨Finset.Subset.refl _, fun h => h⟩
    · exact update_desktops_shrink win screens desktop_area screens_geos _ _ _ areas d s
    · exact update_desktop_shrinks win screens desktop_area screens_geos _ _ areas _ d s
  refine ⟨hmain.1, hmain.2, fun hs => ?_⟩
  simp [update_space_areas, hs]

end win.x11

namespace input

/-- C30 (as stated, refuted): `BTN_SIDE` and `BTN_BACK` are both keys of `button_map` and both
map to the Qt button of value 8, so the way back cannot return both: with the entries in the
listed order the round trip of `BTN_BACK` ends at `BTN_SIDE`, and in no order do both codes
come back. -/
theorem side_and_back_buttons_collide :
    qt_mouse_button_to_button button_map (button_to_qt_mouse_button BTN_BACK) = BTN_SIDE ∧
      BTN_SIDE ≠ BTN_BACK ∧ BTN_BACK ∈ button_map.map Prod.fst ∧
      ∀ order : List (Nat × Nat),
        ¬ (qt_mouse_button_to_button order (button_to_qt_mouse_button BTN_SIDE) = BTN_SIDE ∧
          qt_mouse_button_to_button order (button_to_qt_mouse_button BTN_BACK) = BTN_BACK) := by
  refine ⟨by decide, by decide, by decide, fun order h => ?_⟩
  have hsame : button_to_qt_mouse_button BTN_SIDE = button_to_qt_mouse_button BTN_BACK := by
    decide
  rw [hsame] at h
  have hne : BTN_SIDE ≠ BTN_BACK := by decide
  exact hne (h.1.symm.trans h.2)

/-- C30 (amended): whatever the iteration order of the hash, for every key `b` of `button_map`
other than `BTN_SIDE`, `BTN_BACK`, `BTN_EXTRA` and `BTN_FORWARD` the round trip
`qt_mouse_button_to_button(button_to_qt_mouse_button(b))` returns `b`; for `BTN_SIDE` and
`BTN_BACK` it returns one of these two, for `BTN_EXTRA` and `BTN_FORWARD` one of those two;
every code that is not a key maps to `Qt::ExtraButton24`. -/
theorem button_round_trip (order : List (Nat × Nat)) (hperm : order.Perm button_map)
    (b : Nat) :
    (b ∈ button_map.map Prod.fst → b ∉ [BTN_SIDE, BTN_BACK, BTN_EXTRA, BTN_FORWARD] →
        qt_mouse_button_to_button order (button_to_qt_mouse_button b) = b) ∧
      (b ∈ [BTN_SIDE, BTN_BACK] →
        qt_mouse_button_to_button order (button_to_qt_mouse_button b)
          ∈ [BTN_SIDE, BTN_BACK]) ∧
      (b ∈ [BTN_EXTRA, BTN_FORWARD] →
        qt_mouse_button_to_button order (button_to_qt_mouse_button b)
          ∈ [BTN_EXTRA, BTN_FORWARD]) ∧
      (b ∉ button_map.map Prod.fst → button_to_qt_mouse_button b = Qt.ExtraButton24) := by
  refine ⟨fun hb hnot => ?_, fun hb => ?_, fun hb => ?_, fun hb => ?_⟩
  · obtain ⟨e, he, hv, hkey⟩ := key_of_value order hperm _ (value_in_map b hb)
    rw [hkey]
    exact unshared_values b hb hnot e he hv
  · have hkeyed : b ∈ button_map.map Prod.fst := by
      have hsub : ∀ x ∈ [BTN_SIDE, BTN_BACK], x ∈ button_map.map Prod.fst := by decide
      exact hsub b hb
    obtain ⟨e, he, hv, hkey⟩ := key_of_value order hperm _ (value_in_map b hkeyed)
    rw [hkey]
    exact shared_values.1 b hb e he hv
  · have hkeyed : b ∈ button_map.map Prod.fst := by
      have hsub : ∀ x ∈ [BTN_EXTRA, BTN_FORWARD], x ∈ button_map.map Prod.fst := by decide
      exact hsub b hb
    obtain ⟨e, he, hv, hkey⟩ := key_of_value order hperm _ (value_in_map b hkeyed)
    rw [hkey]
    exact shared_values.2 b hb e he hv
  · have hnone : button_map.find? (fun e => decide (e.1 = b)) = none := by
      rw [List.find?_eq_none]
      intro e he
      have : e.1 ≠ b := fun heq => hb (heq ▸ List.mem_map_of_mem Prod.fst he)
      simpa using this
    simp [button_to_qt_mouse_button, hnone]

theorem button_round_trip_witness :
    (BTN_LEFT ∈ button_map.map Prod.fst →
        BTN_LEFT ∉ [BTN_SIDE, BTN_BACK, BTN_EXTRA, BTN_FORWARD] →
        qt_mouse_button_to_button button_map.reverse (button_to_qt_mouse_button BTN_LEFT)
          = BTN_LEFT) ∧
      (BTN_LEFT ∈ [BTN_SIDE, BTN_BACK] →
        qt_mouse_button_to_button button_map.reverse (button_to_qt_mouse_button BTN_LEFT)
          ∈ [BTN_SIDE, BTN_BACK]) ∧
      (BTN_LEFT ∈ [BTN_EXTRA, BTN_FORWARD] →
        qt_mouse_button_to_button button_map.reverse (button_to_qt_mouse_button BTN_LEFT)
          ∈ [BTN_EXTRA, BTN_FORWARD]) ∧
      (BTN_LEFT ∉ button_map.map Prod.fst →
        button_to_qt_mouse_button BTN_LEFT = Qt.ExtraButton24) :=
  button_round_trip button_map.reverse (List.reverse_perm button_map) BTN_LEFT

end input

end KWin
